import Mathlib

/-!
Verification of the EIF-selection scoring and parsing code
(`examples/eif_selection/eif_selection.py`) of the graph-of-thoughts
repository, against its natural-language specification.

Modelling conventions (shallow embedding):
* Python `str` values are Lean `String`s; most functions work on the
  underlying `List Char` (`s.data`), which matches Python's code-point view
  (`len`, slicing and iteration are per code point).
* Python `float` scores are modelled as `ℚ`.  All float values appearing in
  the scoring code are small sums, divisions and comparisons of exactly
  representable quantities, so rational arithmetic is the intended reading
  of the specification ("scores in [0,1]", threshold 0.7).
* Python whitespace (for `str.strip`/`str.split` and the regex class `\s`)
  is modelled by the six ASCII whitespace characters; `\d` and `[A-Z]` are
  modelled by their ASCII ranges, `str.lower` by per-character
  `Char.toLower`.  The inputs of the specification are ASCII/CJK text for
  which these agree with Python.
* The LLM used by `check_eif_semantic_similarity` is modelled as an
  abstract response value: `none` when no model is configured, and
  otherwise `some r` where `r : Except Unit (List String)` is either the
  list of response texts or an exception raised by the query.
-/

namespace EifSelection

/-! ### Python string primitives -/

/-- Python whitespace (ASCII part): the characters accepted by `str.isspace`
that occur in ASCII, used by `str.strip`, `str.split` and the regex `\s`. -/
def isPySpace (c : Char) : Bool :=
  c = ' ' || c = '\t' || c = '\n' || c = '\x0b' || c = '\x0c' || c = '\r'

/-- Python `str.lower`, per character. -/
def lowerChars (l : List Char) : List Char := l.map Char.toLower

/-- Python `str.strip()`: remove leading and trailing whitespace. -/
def pyStrip (l : List Char) : List Char :=
  ((l.dropWhile isPySpace).reverse.dropWhile isPySpace).reverse

/-- One step (from the right) of Python `str.split()`: a whitespace
character opens a new (initially empty) token, any other character is
prepended to the current first token. -/
def splitF (c : Char) (toks : List (List Char)) : List (List Char) :=
  if isPySpace c then [] :: toks
  else
    match toks with
    | [] => [[c]]
    | t :: ts => (c :: t) :: ts

/-- Tokens of Python `str.split()` before discarding empty pieces. -/
def rawSplit (l : List Char) : List (List Char) := l.foldr splitF []

/-- Python `str.split()` (no argument): split on whitespace runs and drop
empty tokens. -/
def pySplit (l : List Char) : List (List Char) :=
  (rawSplit l).filter (fun t => !t.isEmpty)

/-- Python `' '.join(tokens)`. -/
def joinSp (toks : List (List Char)) : List Char := List.intercalate [' '] toks

/-- Python `re.sub(r'\(op [^cl]* cl\)', '', s)` for a single
opening/closing character pair: scanning left to right, a group from an
opening character to the first closing character after it is deleted; an
opening character with no later closing character is kept verbatim.  The
second argument is `none` while scanning outside a group and `some buf`
(buffered characters, reversed) after an unclosed opening character. -/
def subParenAux (op cl : Char) : List Char → Option (List Char) → List Char
  | [], none => []
  | [], some buf => op :: buf.reverse
  | c :: cs, none =>
    if c = op then subParenAux op cl cs (some [])
    else c :: subParenAux op cl cs none
  | c :: cs, some buf =>
    if c = cl then subParenAux op cl cs none
    else subParenAux op cl cs (some (c :: buf))

/-- `normalize_eif_name` from `eif_selection.py`:
`name.lower().strip()`, then `' '.join(name.split())`, then
`re.sub(r'\([^)]*\)', '', name)`, then `re.sub(r'（[^）]*）', '', name)`,
then `name.strip()`. -/
def normalize_eif_name (s : String) : String :=
  let l := pyStrip (lowerChars s.data)
  let l := joinSp (pySplit l)
  let l := subParenAux '(' ')' l none
  let l := subParenAux '（' '）' l none
  ⟨pyStrip l⟩

/-! ### `_string_similarity` (the lexical oracle) -/

/-- Jaccard similarity as computed at the end of `_string_similarity`:
`intersection / union if union > 0 else 0.0`. -/
def jaccardQ {α : Type} [DecidableEq α] (s1 s2 : Finset α) : ℚ :=
  let inter := (s1 ∩ s2).card
  let union := (s1 ∪ s2).card
  if 0 < union then (inter : ℚ) / union else 0

/-- `_string_similarity` from `eif_selection.py`: `0.0` when either string
is empty; otherwise Jaccard similarity of the whitespace-token sets, or of
the character sets when either token set is empty. -/
def string_similarity (s1 s2 : String) : ℚ :=
  if s1 = "" ∨ s2 = "" then 0
  else
    let set1 := (pySplit s1.data).toFinset
    let set2 := (pySplit s2.data).toFinset
    if set1 = ∅ ∨ set2 = ∅ then jaccardQ s1.data.toFinset s2.data.toFinset
    else jaccardQ set1 set2

/-- The specification's description of the lexical oracle, written from the
spec's words for comparison with `string_similarity`: token-set Jaccard
similarity; if either string has no whitespace-delimited tokens, fall back
to character-set Jaccard. -/
def string_similarity_spec (s1 s2 : String) : ℚ :=
  let t1 := (pySplit s1.data).toFinset
  let t2 := (pySplit s2.data).toFinset
  if t1 ≠ ∅ ∧ t2 ≠ ∅ then jaccardQ t1 t2
  else jaccardQ s1.data.toFinset s2.data.toFinset

/-! ### `check_eif_semantic_similarity` (the semantic oracle) -/

/-- Value of a digit run, as read by `float` on the regex match. -/
def digitsToNat (ds : List Char) : ℕ :=
  ds.foldl (fun a c => 10 * a + (c.toNat - '0'.toNat)) 0

/-- The regex search `re.search(r'(\d+\.?\d*)', text)` followed by
`float(match.group(1))`: find the first digit, take the maximal digit run,
an optional decimal point and the following digit run, and read the
matched text as a number. -/
def extractFirstNumber : List Char → Option ℚ
  | [] => none
  | c :: cs =>
    if c.isDigit then
      let ds := (c :: cs).takeWhile Char.isDigit
      let rest := (c :: cs).dropWhile Char.isDigit
      match rest with
      | '.' :: r2 =>
        let fs := r2.takeWhile Char.isDigit
        some ((digitsToNat ds : ℚ) + (digitsToNat fs : ℚ) / ((10 : ℚ) ^ fs.length))
      | _ => some ((digitsToNat ds : ℚ))
    else extractFirstNumber cs

/-- `check_eif_semantic_similarity` from `eif_selection.py`.  `lmResponse`
models the language model: `none` when `lm is None`, `some (.error ())`
when `lm.query` raises, `some (.ok texts)` when the query returns
`texts`.  When the LLM path is not taken or fails in any way the function
falls back to `_string_similarity(name1, name2)`; a parsed score is
clamped by `max(0.0, min(1.0, score))`. -/
def check_eif_semantic_similarity (name1 name2 : String)
    (lmResponse : Option (Except Unit (List String))) (use_lm : Bool) : ℚ :=
  match lmResponse, use_lm with
  | none, _ => string_similarity name1 name2
  | _, false => string_similarity name1 name2
  | some (.error _), true => string_similarity name1 name2
  | some (.ok texts), true =>
    match texts with
    | [] => string_similarity name1 name2
    | t :: _ =>
      match extractFirstNumber (pyStrip t.data) with
      | some q => max 0 (min 1 q)
      | none => string_similarity name1 name2

/-! ### `calculate_eif_similarity` -/

/-- How pair scores are produced inside the matching loop of
`calculate_eif_similarity`: either the configured language model is used
on the original names (`use_lm_semantic and lm is not None`), abstracted
as a score function, or `_string_similarity` is applied to the normalized
names. -/
inductive SimMode where
  | lexical : SimMode
  | semantic : (String → String → ℚ) → SimMode

/-- The similarity computed for one predicted/truth pair in the loop body
of `calculate_eif_similarity`. -/
def oracleScore : SimMode → String → String → String → String → ℚ
  | .lexical, predNorm, _, truthNorm, _ => string_similarity predNorm truthNorm
  | .semantic f, _, predOrig, _, truthOrig => f predOrig truthOrig

/-- Mutable state of the fuzzy-matching loop: `fuzzy_score`,
`matched_truth` (original truth names already claimed) and
`match_details` (predicted original, truth original, score). -/
structure FuzzyState where
  fuzzyScore : ℚ
  matchedTruth : List String
  matchDetails : List (String × String × ℚ)
deriving DecidableEq

/-- One step of the inner loop over `unmatched_truth`: skip truth items
whose original name is already claimed, and keep the best (strictly
larger) score with its (normalized, original) pair. -/
def bcStep (mode : SimMode) (matchedTruth : List String)
    (predNorm predOrig : String) (acc : ℚ × Option (String × String))
    (tt : String × String) : ℚ × Option (String × String) :=
  if tt.2 ∈ matchedTruth then acc
  else
    let s := oracleScore mode predNorm predOrig tt.1 tt.2
    if acc.1 < s then (s, some tt) else acc

/-- The inner loop over `unmatched_truth`: the best remaining candidate
for one predicted item, starting from `max_similarity = 0.0` and
`best_match = None`. -/
def bestCandidate (mode : SimMode) (matchedTruth : List String)
    (predNorm predOrig : String) (unmatchedTruth : List (String × String)) :
    ℚ × Option (String × String) :=
  unmatchedTruth.foldl (bcStep mode matchedTruth predNorm predOrig) (0, none)

/-- One iteration of the outer loop of `calculate_eif_similarity`: accept
the best candidate as a fuzzy match when `max_similarity > 0.7 and
best_match` (so the best normalized name must also be non-empty). -/
def fuzzyStep (mode : SimMode) (unmatchedTruth : List (String × String))
    (st : FuzzyState) (pp : String × String) : FuzzyState :=
  let best := bestCandidate mode st.matchedTruth pp.1 pp.2 unmatchedTruth
  match best.2 with
  | some tt =>
    if 7 / 10 < best.1 ∧ tt.1 ≠ "" then
      ⟨st.fuzzyScore + best.1, tt.2 :: st.matchedTruth,
        st.matchDetails ++ [(pp.2, tt.2, best.1)]⟩
    else st
  | none => st

/-- The whole fuzzy-matching loop over `unmatched_pred`. -/
def fuzzyLoop (mode : SimMode) (unmatchedTruth : List (String × String))
    (unmatchedPred : List (String × String)) : FuzzyState :=
  unmatchedPred.foldl (fuzzyStep mode unmatchedTruth) ⟨0, [], []⟩

/-- `pred_normalized` / `truth_normalized`: the list of normalized names. -/
def normalizedList (l : List String) : List String := l.map normalize_eif_name

/-- `exact_matches = len(pred_set & truth_set)`: the number of distinct
normalized names shared by the two lists. -/
def exactOf (predicted ground_truth : List String) : ℕ :=
  ((normalizedList predicted).toFinset ∩ (normalizedList ground_truth).toFinset).card

/-- `unmatched_pred`: the (normalized, original) pairs of predicted items
whose normalized name is not in the truth set. -/
def unmatchedPredOf (predicted ground_truth : List String) : List (String × String) :=
  ((normalizedList predicted).zip predicted).filter
    (fun pp => decide (pp.1 ∉ normalizedList ground_truth))

/-- `unmatched_truth`: the (normalized, original) pairs of ground-truth
items whose normalized name is not in the predicted set. -/
def unmatchedTruthOf (predicted ground_truth : List String) : List (String × String) :=
  ((normalizedList ground_truth).zip ground_truth).filter
    (fun tt => decide (tt.1 ∉ normalizedList predicted))

/-- The fuzzy loop of `calculate_eif_similarity` on its unmatched lists. -/
def loopOf (mode : SimMode) (predicted ground_truth : List String) : FuzzyState :=
  fuzzyLoop mode (unmatchedTruthOf predicted ground_truth)
    (unmatchedPredOf predicted ground_truth)

/-- The dictionary returned by `calculate_eif_similarity`. -/
structure ScoreReport where
  f1_score : ℚ
  precision : ℚ
  recall' : ℚ
  exact_matches : ℕ
  fuzzy_score : ℚ
  semantic_matches : List (String × String × ℚ)
deriving DecidableEq

/-- `calculate_eif_similarity` from `eif_selection.py`.  Match details are
modelled as (predicted original, truth original, score) triples instead of
the formatted log strings. -/
def calculate_eif_similarity (mode : SimMode)
    (predicted ground_truth : List String) : ScoreReport :=
  if ground_truth = [] ∧ predicted = [] then ⟨1, 1, 1, 0, 0, []⟩
  else if ground_truth = [] ∨ predicted = [] then ⟨0, 0, 0, 0, 0, []⟩
  else
    let exact_matches := exactOf predicted ground_truth
    let st := loopOf mode predicted ground_truth
    let total : ℚ := (exact_matches : ℚ) + st.fuzzyScore
    let precision : ℚ := if predicted ≠ [] then total / (predicted.length : ℚ) else 0
    let recall' : ℚ := if ground_truth ≠ [] then total / (ground_truth.length : ℚ) else 0
    let f1 : ℚ :=
      if precision + recall' = 0 then 0
      else 2 * (precision * recall') / (precision + recall')
    ⟨f1, precision, recall', exact_matches, st.fuzzyScore, st.matchDetails⟩

/-! ### `FunctionPointParser.extract_answer`

The parser extracts the predicted EIF list from a model response.  Each
regular expression of the source is embedded as a dedicated matcher with
Python `re` semantics (leftmost match, greedy/lazy repetition with
backtracking as analysed per pattern); `re.search` position scanning is a
character-by-character scan that tries the pattern tail at every
occurrence of the pattern's leading literal. -/

/-- Membership of a literal substring (used for the `'列表' not in item`
style checks). -/
def containsSub (needle : List Char) : List Char → Bool
  | [] => needle.isEmpty
  | c :: cs => needle.isPrefixOf (c :: cs) || containsSub needle cs

/-- First occurrence of a literal substring: returns the characters before
the occurrence and the characters after it. -/
def findSub (needle : List Char) : List Char → Option (List Char × List Char)
  | [] => if needle.isEmpty then some ([], []) else none
  | c :: cs =>
    if needle.isPrefixOf (c :: cs) then some ([], (c :: cs).drop needle.length)
    else
      match findSub needle cs with
      | some (b, r) => some (c :: b, r)
      | none => none

/-- `re.search` scanning for a pattern that starts with a literal label:
try the tail matcher at every occurrence of the label, left to right. -/
def searchLabel (label : List Char) (tailFn : List Char → Option (List Char)) :
    List Char → Option (List Char)
  | [] => none
  | c :: cs =>
    if label.isPrefixOf (c :: cs) then
      match tailFn ((c :: cs).drop label.length) with
      | some g => some g
      | none => searchLabel label tailFn cs
    else searchLabel label tailFn cs

/-- Matcher for `[：:]\s*\[([^\]]+)\]` directly after a label: a colon, any
whitespace, then a bracketed group with at least one character before the
first closing bracket. -/
def bracketColonTail : List Char → Option (List Char)
  | [] => none
  | c :: cs =>
    if c = '：' ∨ c = ':' then
      match cs.dropWhile isPySpace with
      | '[' :: r2 =>
        let inner := r2.takeWhile (fun x => !(x = ']'))
        if inner.isEmpty then none
        else
          match r2.drop inner.length with
          | ']' :: _ => some inner
          | _ => none
      | _ => none
    else none

/-- The last character of a whitespace run that is not a newline, if any:
where `\s*` backtracks to when a following `[^\n…]+` cannot start after
the full run (which only happens at end of text or before an excluded
character, making the captured group that single whitespace character). -/
def lastNonNewline (run : List Char) : Option Char :=
  run.foldl (fun acc c => if c = '\n' then acc else some c) none

/-- Matcher for `[：:]\s*([^\n…]+)` directly after a label, where `excl`
recognises the characters excluded from the group class (`'\n'`, and
`'（'` for the `[^\n（]+` variants).  When the text after the whitespace
run starts with a group character the group is the maximal run of group
characters; otherwise `\s*` backtracks and the group degenerates to a
single non-newline whitespace character when one exists. -/
def lineColonTail (excl : Char → Bool) : List Char → Option (List Char)
  | [] => none
  | c :: cs =>
    if c = '：' ∨ c = ':' then
      let run := cs.takeWhile isPySpace
      match cs.dropWhile isPySpace with
      | r :: rest =>
        if excl r then
          match lastNonNewline run with
          | some w => some [w]
          | none => none
        else some (r :: rest.takeWhile (fun x => !excl x))
      | [] =>
        match lastNonNewline run with
        | some w => some [w]
        | none => none
    else none

/-- Matcher for `\*?\*?[：:]\s*\[([^\]]+)\]` after the label of
`\*?\*?EIF功能点列表\*?\*?[：:]…`: up to two asterisks may be consumed
before the colon. -/
def starsBracketTail (l : List Char) : Option (List Char) :=
  let stars := l.takeWhile (fun c => c = '*')
  if stars.length ≤ 2 then bracketColonTail (l.drop stars.length) else none

/-- The pattern `最终.*?功能点.*?列表[：:]\s*\[([^\]]+)\]` (DOTALL): lazy
scans for `功能点` then `列表` after a `最终`, with full backtracking. -/
def p5Search (l : List Char) : Option (List Char) :=
  searchLabel "最终".data
    (fun r1 =>
      searchLabel "功能点".data
        (fun r2 => searchLabel "列表".data bracketColonTail r2) r1)
    l

/-- One item of `(?:\d+\.\s*\*\*[^\*]+\*\*[^\n]*\n?)+`: a numbered,
bold-faced line.  Returns the consumed characters and the rest. -/
def repMatch (l : List Char) : Option (List Char × List Char) :=
  let ds := l.takeWhile Char.isDigit
  if ds.isEmpty then none
  else
    match l.drop ds.length with
    | '.' :: r2 =>
      let ws := r2.takeWhile isPySpace
      match r2.drop ws.length with
      | '*' :: '*' :: r3 =>
        let inner := r3.takeWhile (fun x => !(x = '*'))
        if inner.isEmpty then none
        else
          match r3.drop inner.length with
          | '*' :: '*' :: r4 =>
            let line := r4.takeWhile (fun x => !(x = '\n'))
            match r4.drop line.length with
            | '\n' :: r5 =>
              some (ds ++ '.' :: ws ++ '*' :: '*' :: inner ++ '*' :: '*' :: line ++ ['\n'], r5)
            | r5 => some (ds ++ '.' :: ws ++ '*' :: '*' :: inner ++ '*' :: '*' :: line, r5)
          | _ => none
      | _ => none
    | _ => none

/-- Greedy `+` repetition of `repMatch` (at least one item). -/
def repPlus (fuel : ℕ) (l : List Char) : Option (List Char × List Char) :=
  match fuel with
  | 0 => none
  | fuel + 1 =>
    match repMatch l with
    | none => none
    | some (c1, r1) =>
      match repPlus fuel r1 with
      | some (c2, r2) => some (c1 ++ c2, r2)
      | none => some (c1, r1)

/-- Matcher for `[：:]\s*\*?\*?\s*\n((?:\d+\.\s*\*\*[^\*]+\*\*[^\n]*\n?)+)`
after the `EIF功能点列表` label.  Up to two asterisks may sit at the end of
the first whitespace run; the whitespace before the numbered items must
end with a newline (any other backtracking split leaves a whitespace
character in front of the first numbered item, where `\d+` fails). -/
def titleTail : List Char → Option (List Char)
  | [] => none
  | c :: cs =>
    if c = '：' ∨ c = ':' then
      let rest := cs.dropWhile isPySpace
      match rest with
      | '*' :: _ =>
        let stars := rest.takeWhile (fun x => x = '*')
        if stars.length ≤ 2 then
          let after := rest.drop stars.length
          let run2 := after.takeWhile isPySpace
          let rest2 := after.drop run2.length
          if run2.getLast? = some '\n' then
            (repPlus (rest2.length + 1) rest2).map (fun pr => pr.1)
          else none
        else none
      | _ =>
        if (cs.takeWhile isPySpace).getLast? = some '\n' then
          (repPlus (rest.length + 1) rest).map (fun pr => pr.1)
        else none
    else none

/-- The regex classes `[A-Za-z_\s]` and `[A-Z_\s]`. -/
def classAZs (c : Char) : Bool := c.isAlpha || c = '_' || isPySpace c

/-- The class `[A-Z_\s]`. -/
def classAZUs (c : Char) : Bool := c.isUpper || c = '_' || isPySpace c

/-- Dash characters of the `[-–—]` classes. -/
def isDash (c : Char) : Bool := c = '-' || c = '–' || c = '—'

/-- Match `\d+\.\s*\*\*([A-Z][A-Za-z_\s]+)\*\*` at the head of the text;
returns the captured group and the rest after the match. -/
def boldNameAt (l : List Char) : Option (List Char × List Char) :=
  let ds := l.takeWhile Char.isDigit
  if ds.isEmpty then none
  else
    match l.drop ds.length with
    | '.' :: r2 =>
      match r2.dropWhile isPySpace with
      | '*' :: '*' :: g0 :: r4 =>
        if g0.isUpper then
          let run := r4.takeWhile classAZs
          if run.isEmpty then none
          else
            match r4.drop run.length with
            | '*' :: '*' :: r5 => some (g0 :: run, r5)
            | _ => none
        else none
      | _ => none
    | _ => none

/-- `re.findall` with the bold-name pattern (used on the section found
after the `EIF功能点列表` title). -/
def findallBold (fuel : ℕ) (l : List Char) : List (List Char) :=
  match fuel with
  | 0 => []
  | fuel + 1 =>
    match l with
    | [] => []
    | c :: cs =>
      match boldNameAt (c :: cs) with
      | some (g, rest) => g :: findallBold fuel rest
      | none => findallBold fuel cs

/-- Match `\d+\.\s*\*\*([A-Z][A-Za-z_\s]+)\*\*\s*[-–—]` at the head. -/
def boldDashAt (l : List Char) : Option (List Char × List Char) :=
  match boldNameAt l with
  | some (g, rest) =>
    match rest.dropWhile isPySpace with
    | d :: r => if isDash d then some (g, r) else none
    | [] => none
  | none => none

/-- `re.findall` with the bold-name-and-dash pattern. -/
def findallBoldDash (fuel : ℕ) (l : List Char) : List (List Char) :=
  match fuel with
  | 0 => []
  | fuel + 1 =>
    match l with
    | [] => []
    | c :: cs =>
      match boldDashAt (c :: cs) with
      | some (g, rest) => g :: findallBoldDash fuel rest
      | none => findallBoldDash fuel cs

/-- The whitespace run after the last newline of `w`, when `w` contains a
newline (`\s*\n` consumes through the last newline of the run). -/
def afterLastNewline : List Char → Option (List Char)
  | [] => none
  | c :: cs =>
    match afterLastNewline cs with
    | some r => some r
    | none => if c = '\n' then some cs else none

/-- The consuming alternation `(?:\s*[-–—]|\s*\n|$)` that ends one item of
the plain numbered-list pattern; returns the rest after the consumed
part. -/
def tailAltS (l : List Char) : Option (List Char) :=
  let w := l.takeWhile isPySpace
  let r := l.drop w.length
  let alt1 : Option (List Char) :=
    match r with
    | d :: rr => if isDash d then some rr else none
    | [] => none
  match alt1 with
  | some rr => some rr
  | none =>
    match afterLastNewline w with
    | some rest2 => some (rest2 ++ r)
    | none => if l = [] ∨ l = ['\n'] then some l else none

/-- The lazy group extension of `([A-Z][A-Z_\s]+?)`: starting from the
accumulated (reversed) group, try the ending alternation, otherwise
extend by one class character. -/
def plainNameExtend (fuel : ℕ) (acc : List Char) (l : List Char) :
    Option (List Char × List Char) :=
  match fuel with
  | 0 => none
  | fuel + 1 =>
    match tailAltS l with
    | some rest => some (acc.reverse, rest)
    | none =>
      match l with
      | c :: cs => if classAZUs c then plainNameExtend fuel (c :: acc) cs else none
      | [] => none

/-- Match `\d+\.\s*([A-Z][A-Z_\s]+?)(?:\s*[-–—]|\s*\n|$)` at the head. -/
def plainNameAt (l : List Char) : Option (List Char × List Char) :=
  let ds := l.takeWhile Char.isDigit
  if ds.isEmpty then none
  else
    match l.drop ds.length with
    | '.' :: r2 =>
      match r2.dropWhile isPySpace with
      | g0 :: r3 =>
        if g0.isUpper then
          match r3 with
          | c1 :: r4 =>
            if classAZUs c1 then plainNameExtend (r4.length + 1) [c1, g0] r4
            else none
          | [] => none
        else none
      | [] => none
    | _ => none

/-- `re.findall` with the plain numbered-name pattern. -/
def findallPlain (fuel : ℕ) (l : List Char) : List (List Char) :=
  match fuel with
  | 0 => []
  | fuel + 1 =>
    match l with
    | [] => []
    | c :: cs =>
      match plainNameAt (c :: cs) with
      | some (g, rest) => g :: findallPlain fuel rest
      | none => findallPlain fuel cs

/-- The class `[A-Z_,\s]` of the text-tail list pattern. -/
def classTailList (c : Char) : Bool := c.isUpper || c = '_' || c = ',' || isPySpace c

/-- `re.search(r'\[([A-Z][A-Z_,\s]+)\](?!.*\[)', tail, re.DOTALL)`: an
all-caps bracketed list not followed by any further opening bracket. -/
def tailListSearch (fuel : ℕ) (l : List Char) : Option (List Char) :=
  match fuel with
  | 0 => none
  | fuel + 1 =>
    match l with
    | [] => none
    | '[' :: r =>
      match r with
      | g0 :: r2 =>
        if g0.isUpper then
          let run := r2.takeWhile classTailList
          match r2.drop run.length with
          | ']' :: rest =>
            if !run.isEmpty && !rest.any (fun c => c = '[') then some (g0 :: run)
            else tailListSearch fuel r
          | _ => tailListSearch fuel r
        else tailListSearch fuel r
      | [] => none
    | _ :: cs => tailListSearch fuel cs

/-- `re.search(r'EIF功能点列表[：:](.*?)(?=\n\n|\Z)', text, re.DOTALL)`:
after the label and colon, the lazily shortest stretch up to a blank line
or the end of the text. -/
def sectionAfterTitle (t : List Char) : Option (List Char) :=
  searchLabel "EIF功能点列表".data
    (fun r =>
      match r with
      | c :: cs =>
        if c = '：' ∨ c = ':' then
          match findSub ['\n', '\n'] cs with
          | some (before, _) => some before
          | none => some cs
        else none
      | [] => none)
    t

/-- The delimiter class `[,，、;；]` of `re.split`. -/
def isDelim (c : Char) : Bool := c = ',' || c = '，' || c = '、' || c = ';' || c = '；'

/-- `re.split` on single characters: split at each delimiter, keeping
empty pieces. -/
def splitOn (p : Char → Bool) (l : List Char) : List (List Char) :=
  l.foldr
    (fun c acc =>
      if p c then [] :: acc
      else
        match acc with
        | [] => [[c]]
        | t :: ts => (c :: t) :: ts)
    [[]]

/-- `_clean_eif_name` from `eif_selection.py`: strip a leading
`\d+[\.\)、]\s*` numbering, a leading `[-•·]\s*` bullet, remove all square
brackets, and normalize whitespace with `' '.join(name.split())`. -/
def clean_eif_name (l : List Char) : List Char :=
  let l1 :=
    let ds := l.takeWhile Char.isDigit
    if ds.isEmpty then l
    else
      match l.drop ds.length with
      | p :: rest => if p = '.' ∨ p = ')' ∨ p = '、' then rest.dropWhile isPySpace else l
      | [] => l
  let l2 :=
    match l1 with
    | c :: cs => if c = '-' ∨ c = '•' ∨ c = '·' then cs.dropWhile isPySpace else l1
    | [] => l1
  let l3 := l2.filter (fun c => !(c = '[' || c = ']'))
  joinSp (pySplit l3)

/-- The sentinel values `["无", "无。", "None", "none"]` that mean "no EIF
items" when found as an extracted answer. -/
def noneSentinels : List (List Char) := ["无".data, "无。".data, "None".data, "none".data]

/-- Try a list of label patterns in order; a pattern whose match processes
to a result (or to the sentinel's empty list) ends the loop, otherwise the
next pattern is tried (`continue`). -/
def tryPatterns (pats : List (List Char → Option (List Char)))
    (process : List Char → Option (List String)) (t : List Char) :
    Option (List String) :=
  match pats with
  | [] => none
  | p :: ps =>
    match p t with
    | some g =>
      match process g with
      | some res => some res
      | none => tryPatterns ps process t
    | none => tryPatterns ps process t

/-- The `final_patterns` of the long-text branch of `extract_answer`. -/
def finalPatterns : List (List Char → Option (List Char)) :=
  [ searchLabel "**最终EIF功能点列表**".data bracketColonTail
  , searchLabel "**最终EIF功能点列表**".data (lineColonTail (fun c => c = '\n'))
  , searchLabel "最终EIF功能点列表".data bracketColonTail
  , searchLabel "最终EIF功能点列表".data (lineColonTail (fun c => c = '\n'))
  , p5Search
  , searchLabel "EIF功能点列表".data starsBracketTail
  , searchLabel "EIF功能点列表".data (lineColonTail (fun c => c = '\n')) ]

/-- Group processing of the long-text branch: sentinel check, split on
`[,，、;；]`, clean each stripped piece, keep non-empty items of length
below 50. -/
def processFinalGroup (g : List Char) : Option (List String) :=
  let gs := pyStrip g
  if gs ∈ noneSentinels then some []
  else
    let pieces := splitOn isDelim gs
    let eifs := pieces.map (fun item => clean_eif_name (pyStrip item))
    let eifs := eifs.filter (fun item => !item.isEmpty && decide (item.length < 50))
    if eifs.isEmpty then none else some (eifs.map (fun cs => (⟨cs⟩ : String)))

/-- Group processing of the text-tail list of the long-text branch: split
on ASCII commas only, clean, keep items of length below 50. -/
def processTailGroup (g : List Char) : Option (List String) :=
  let gs := pyStrip g
  let pieces := splitOn (fun c => c = ',') gs
  let eifs := pieces.map (fun item => clean_eif_name (pyStrip item))
  let eifs := eifs.filter (fun item => !item.isEmpty && decide (item.length < 50))
  if eifs.isEmpty then none else some (eifs.map (fun cs => (⟨cs⟩ : String)))

/-- The main `patterns` list of `extract_answer`, in priority order. -/
def loopPatterns : List (List Char → Option (List Char)) :=
  [ searchLabel "最终EIF功能点列表".data bracketColonTail
  , searchLabel "最终EIF功能点列表".data (lineColonTail (fun c => c = '\n' || c = '（'))
  , searchLabel "改进后的EIF功能点列表".data bracketColonTail
  , searchLabel "改进后的EIF功能点列表".data (lineColonTail (fun c => c = '\n' || c = '（'))
  , searchLabel "该视角识别的EIF功能点".data bracketColonTail
  , searchLabel "该视角识别的EIF功能点".data (lineColonTail (fun c => c = '\n' || c = '（'))
  , searchLabel "EIF功能点列表".data starsBracketTail
  , searchLabel "EIF功能点列表".data bracketColonTail
  , searchLabel "EIF功能点列表".data (lineColonTail (fun c => c = '\n' || c = '（'))
  , searchLabel "功能点如下".data (lineColonTail (fun c => c = '\n'))
  , searchLabel "功能点".data (lineColonTail (fun c => c = '\n' || c = '（')) ]

/-- Group processing of the main pattern loop: sentinel check, skip bare
format markers, split, clean the stripped non-blank pieces, keep non-empty
results. -/
def processLoopGroup (g : List Char) : Option (List String) :=
  let a := pyStrip g
  if a ∈ noneSentinels then some []
  else if a = [] ∨ a = "**".data ∨ a = "*".data then none
  else
    let pieces := splitOn isDelim a
    let eifs := (pieces.filter (fun item => !(pyStrip item).isEmpty)).map
      (fun item => clean_eif_name (pyStrip item))
    let eifs := eifs.filter (fun item => !item.isEmpty)
    if eifs.isEmpty then none else some (eifs.map (fun cs => (⟨cs⟩ : String)))

/-- The numbered-bold-list stage directly after an `EIF功能点列表` title. -/
def titleNumberedStage (t : List Char) : Option (List String) :=
  match searchLabel "EIF功能点列表".data titleTail t with
  | some sec =>
    let ms := findallBold (sec.length + 1) sec
    if ms.isEmpty then none
    else
      let eifs := (ms.map (fun m => clean_eif_name (pyStrip m))).filter
        (fun i => !i.isEmpty && decide (2 < i.length) && decide (i.length < 50))
      if eifs.isEmpty then none else some (eifs.map (fun cs => (⟨cs⟩ : String)))
  | none => none

/-- First occurrence of a literal on the same line (no newline may
intervene, since `.` does not match newlines without DOTALL); returns the
rest after the occurrence. -/
def sameLineFind (needle : List Char) : List Char → Option (List Char)
  | [] => none
  | c :: cs =>
    if needle.isPrefixOf (c :: cs) then some ((c :: cs).drop needle.length)
    else if c = '\n' then none
    else sameLineFind needle cs

/-- `re.sub(startLbl + '.*?' + endLbl + '[：:]?\s*', '', l)` (without
DOTALL): remove, scanning left to right, every stretch from the start
label to the first end label on the same line, plus an optional colon and
trailing whitespace. -/
def subLabelUpTo (startLbl endLbl : List Char) (fuel : ℕ) (l : List Char) :
    List Char :=
  match fuel with
  | 0 => l
  | fuel + 1 =>
    match l with
    | [] => []
    | c :: cs =>
      if startLbl.isPrefixOf (c :: cs) then
        match sameLineFind endLbl ((c :: cs).drop startLbl.length) with
        | some rest =>
          let rest2 :=
            match rest with
            | k :: ks => if k = '：' ∨ k = ':' then ks else rest
            | [] => rest
          subLabelUpTo startLbl endLbl fuel (rest2.dropWhile isPySpace)
        | none => c :: subLabelUpTo startLbl endLbl fuel cs
      else c :: subLabelUpTo startLbl endLbl fuel cs

/-- The simple comma-separated extraction stage of `extract_answer`. -/
def simpleModeStage (t : List Char) : Option (List String) :=
  let c1 := subLabelUpTo "根据".data "如下".data (t.length + 1) t
  let c2 := subLabelUpTo "识别出".data "如下".data (c1.length + 1) c1
  let cleaned := pyStrip c2
  if lowerChars cleaned = "无".data ∨ lowerChars cleaned = "none".data ∨ cleaned = [] then
    some []
  else
    let commaResult : Option (List String) :=
      if cleaned.any (fun c => c = ',') || cleaned.any (fun c => c = '，') then
        let pieces := splitOn isDelim cleaned
        let eifs := (pieces.filter (fun i => !(pyStrip i).isEmpty)).map
          (fun i => clean_eif_name (pyStrip i))
        let eifs := eifs.filter (fun i => !i.isEmpty && decide (i.length < 50))
        if eifs.isEmpty then none else some (eifs.map (fun cs => (⟨cs⟩ : String)))
      else none
    match commaResult with
    | some r => some r
    | none =>
      if cleaned.length < 50 ∧ 0 < cleaned.length then
        let nm := clean_eif_name cleaned
        if nm.isEmpty then none else some [⟨nm⟩]
      else none

/-- The numbered/bold list stage over the whole text. -/
def boldListStage (t : List Char) : Option (List String) :=
  let ms := findallBoldDash (t.length + 1) t
  if ms.isEmpty then none
  else
    let eifs := (ms.map (fun m => clean_eif_name (pyStrip m))).filter
      (fun i => !i.isEmpty && decide (2 < i.length) && decide (i.length < 50)
        && !containsSub "列表".data i && !containsSub "功能点".data i)
    if eifs.isEmpty then none else some (eifs.map (fun cs => (⟨cs⟩ : String)))

/-- The plain numbered list stage on the section after `EIF功能点列表`. -/
def sectionListStage (t : List Char) : Option (List String) :=
  match sectionAfterTitle t with
  | some sec =>
    let ms := findallPlain (sec.length + 1) sec
    if ms.isEmpty then none
    else
      let eifs := (ms.map (fun m => clean_eif_name (pyStrip m))).filter
        (fun i => !i.isEmpty && decide (i.length < 50))
      if eifs.isEmpty then none else some (eifs.map (fun cs => (⟨cs⟩ : String)))
  | none => none

/-- `FunctionPointParser.extract_answer` from `eif_selection.py`: extract
the predicted EIF list from a model response, trying the long-text
conclusion patterns, the numbered title list, the main pattern loop, the
simple comma-separated mode, the bold numbered list and the plain
numbered section list in order. -/
def extract_answer (text : String) : List String :=
  if text.data.isEmpty then []
  else
    let t := pyStrip text.data
    let longResult : Option (List String) :=
      if 500 < t.length then
        match tryPatterns finalPatterns processFinalGroup t with
        | some r => some r
        | none =>
          let tl := t.drop (t.length - 500)
          match tailListSearch (tl.length + 1) tl with
          | some g => processTailGroup g
          | none => none
      else none
    match longResult with
    | some r => r
    | none =>
      match titleNumberedStage t with
      | some r => r
      | none =>
        match tryPatterns loopPatterns processLoopGroup t with
        | some r => r
        | none =>
          match simpleModeStage t with
          | some r => r
          | none =>
            match boldListStage t with
            | some r => r
            | none =>
              match sectionListStage t with
              | some r => r
              | none => []

/-- Whether `t` ends with the given suffix (used to state properties about
texts that end in a labeled list). -/
def strEndsWith (t suffix : String) : Bool := suffix.data.isSuffixOf t.data

/-! ### Lemmas about Python `split`/`strip` -/

theorem rawSplit_cons (c : Char) (cs : List Char) :
    rawSplit (c :: cs) = splitF c (rawSplit cs) := rfl

theorem rawSplit_all_empty (l : List Char) (h : ∀ c ∈ l, isPySpace c) :
    ∀ x ∈ rawSplit l, x = [] := by
  induction l with
  | nil => simp [rawSplit]
  | cons c cs ih =>
    intro x hx
    rw [rawSplit_cons] at hx
    have hc : isPySpace c = true := h c (List.mem_cons_self c cs)
    simp only [splitF, hc, if_true] at hx
    rcases List.mem_cons.1 hx with h1 | h1
    · exact h1
    · exact ih (fun d hd => h d (List.mem_cons_of_mem c hd)) x h1

theorem foldr_splitF_empty_init (l : List Char) (A : List (List Char))
    (hA : ∀ x ∈ A, x = []) :
    ∃ B, (∀ x ∈ B, x = ([] : List Char)) ∧
      List.foldr splitF A l = rawSplit l ++ B := by
  induction l with
  | nil => exact ⟨A, hA, by simp [rawSplit]⟩
  | cons c cs ih =>
    obtain ⟨B, hB, hEq⟩ := ih
    rw [List.foldr_cons, hEq, rawSplit_cons]
    by_cases hc : isPySpace c
    · exact ⟨B, hB, by simp [splitF, hc]⟩
    · cases hRS : rawSplit cs with
      | nil =>
        cases hBc : B with
        | nil => exact ⟨[], by simp, by simp [splitF, hc, hRS, hBc]⟩
        | cons b bs =>
          have hb : b = [] := hB b (by simp [hBc])
          refine ⟨bs, fun x hx => hB x (by simp [hBc, hx]), ?_⟩
          simp [splitF, hc, hRS, hBc, hb]
      | cons t ts => exact ⟨B, hB, by simp [splitF, hc, hRS]⟩

theorem pySplit_append_spaces (l sp : List Char) (h : ∀ c ∈ sp, isPySpace c) :
    pySplit (l ++ sp) = pySplit l := by
  unfold pySplit
  have h1 : rawSplit (l ++ sp) = List.foldr splitF (rawSplit sp) l := by
    simp [rawSplit, List.foldr_append]
  obtain ⟨B, hB, hEq⟩ :=
    foldr_splitF_empty_init l (rawSplit sp) (rawSplit_all_empty sp h)
  rw [h1, hEq, List.filter_append]
  have hBnil : B.filter (fun t => !t.isEmpty) = [] := by
    refine List.filter_eq_nil_iff.mpr (fun a ha => ?_)
    simp [hB a ha]
  rw [hBnil, List.append_nil]

theorem pySplit_dropWhile (l : List Char) :
    pySplit (l.dropWhile isPySpace) = pySplit l := by
  induction l with
  | nil => rfl
  | cons c cs ih =>
    by_cases hc : isPySpace c
    · rw [List.dropWhile_cons_of_pos hc]
      rw [ih]
      unfold pySplit
      rw [rawSplit_cons]
      simp [splitF, hc]
    · rw [List.dropWhile_cons_of_neg (by simpa using hc)]

theorem dropWhile_eq_pyStrip_append (l : List Char) :
    ∃ sp, (∀ c ∈ sp, isPySpace c) ∧
      l.dropWhile isPySpace = pyStrip l ++ sp := by
  set m := l.dropWhile isPySpace with hm
  refine ⟨(m.reverse.takeWhile isPySpace).reverse, ?_, ?_⟩
  · intro c hc
    rw [List.mem_reverse] at hc
    exact List.mem_takeWhile_imp hc
  · unfold pyStrip
    rw [← hm]
    conv_lhs => rw [← m.reverse_reverse,
      ← List.takeWhile_append_dropWhile isPySpace m.reverse]
    rw [List.reverse_append]

theorem pySplit_pyStrip (l : List Char) : pySplit (pyStrip l) = pySplit l := by
  obtain ⟨sp, hsp, hEq⟩ := dropWhile_eq_pyStrip_append l
  calc pySplit (pyStrip l) = pySplit (pyStrip l ++ sp) :=
        (pySplit_append_spaces _ sp hsp).symm
    _ = pySplit (l.dropWhile isPySpace) := by rw [← hEq]
    _ = pySplit l := pySplit_dropWhile l

theorem normalize_eq_of_pySplit_eq (s1 s2 : String)
    (h : pySplit (lowerChars s1.data) = pySplit (lowerChars s2.data)) :
    normalize_eif_name s1 = normalize_eif_name s2 := by
  simp only [normalize_eif_name]
  rw [pySplit_pyStrip, pySplit_pyStrip, h]

/-! ### Jaccard bounds -/

theorem jaccardQ_nonneg {α : Type} [DecidableEq α] (s1 s2 : Finset α) :
    0 ≤ jaccardQ s1 s2 := by
  simp only [jaccardQ]
  split
  · positivity
  · exact le_refl 0


theorem jaccardQ_le_one {α : Type} [DecidableEq α] (s1 s2 : Finset α) :
    jaccardQ s1 s2 ≤ 1 := by
  simp only [jaccardQ]
  split
  · rename_i h
    rw [div_le_one (by exact_mod_cast h)]
    exact_mod_cast Finset.card_le_card (Finset.inter_subset_union)
  · norm_num

theorem jaccardQ_empty_left {α : Type} [DecidableEq α] (s : Finset α) :
    jaccardQ ∅ s = 0 := by
  simp only [jaccardQ]
  simp

theorem string_similarity_nonneg (s1 s2 : String) : 0 ≤ string_similarity s1 s2 := by
  simp only [string_similarity]
  split
  · norm_num
  · split <;> exact jaccardQ_nonneg _ _

theorem string_similarity_le_one (s1 s2 : String) : string_similarity s1 s2 ≤ 1 := by
  simp only [string_similarity]
  split
  · norm_num
  · split <;> exact jaccardQ_le_one _ _

/-! ### Lemmas about the fuzzy-matching loop -/

theorem bcFoldl_spec (mode : SimMode) (matched : List String) (pn po : String)
    (ut : List (String × String)) :
    ∀ acc : ℚ × Option (String × String),
      acc.1 ≤ (ut.foldl (bcStep mode matched pn po) acc).1 ∧
      ((ut.foldl (bcStep mode matched pn po) acc) = acc ∨
        ∃ tt, tt ∈ ut ∧ tt.2 ∉ matched ∧
          (ut.foldl (bcStep mode matched pn po) acc).2 = some tt ∧
          (ut.foldl (bcStep mode matched pn po) acc).1 = oracleScore mode pn po tt.1 tt.2) := by
  induction ut with
  | nil => intro acc; exact ⟨le_refl _, Or.inl rfl⟩
  | cons tt ts ih =>
    intro acc
    rw [List.foldl_cons]
    by_cases hm : tt.2 ∈ matched
    · have hstep : bcStep mode matched pn po acc tt = acc := by simp [bcStep, hm]
      rw [hstep]
      rcases ih acc with ⟨h1, h2⟩
      refine ⟨h1, ?_⟩
      rcases h2 with h2 | ⟨tt', h3, h4, h5, h6⟩
      · exact Or.inl h2
      · exact Or.inr ⟨tt', List.mem_cons_of_mem _ h3, h4, h5, h6⟩
    · by_cases hlt : acc.1 < oracleScore mode pn po tt.1 tt.2
      · have hstep : bcStep mode matched pn po acc tt =
            (oracleScore mode pn po tt.1 tt.2, some tt) := by
          simp [bcStep, hm, hlt]
        rw [hstep]
        rcases ih (oracleScore mode pn po tt.1 tt.2, some tt) with ⟨h1, h2⟩
        refine ⟨le_trans (le_of_lt hlt) h1, ?_⟩
        rcases h2 with h2 | ⟨tt', h3, h4, h5, h6⟩
        · rw [h2]
          exact Or.inr ⟨tt, List.mem_cons_self _ _, hm, rfl, rfl⟩
        · exact Or.inr ⟨tt', List.mem_cons_of_mem _ h3, h4, h5, h6⟩
      · have hstep : bcStep mode matched pn po acc tt = acc := by
          simp only [bcStep, if_neg hm]
          rw [if_neg hlt]
        rw [hstep]
        rcases ih acc with ⟨h1, h2⟩
        refine ⟨h1, ?_⟩
        rcases h2 with h2 | ⟨tt', h3, h4, h5, h6⟩
        · exact Or.inl h2
        · exact Or.inr ⟨tt', List.mem_cons_of_mem _ h3, h4, h5, h6⟩

theorem bestCandidate_nonneg (mode : SimMode) (matched : List String) (pn po : String)
    (ut : List (String × String)) : 0 ≤ (bestCandidate mode matched pn po ut).1 := by
  have h := (bcFoldl_spec mode matched pn po ut (0, none)).1
  simpa [bestCandidate] using h

theorem bestCandidate_some (mode : SimMode) (matched : List String) (pn po : String)
    (ut : List (String × String)) (tt : String × String)
    (h : (bestCandidate mode matched pn po ut).2 = some tt) :
    tt ∈ ut ∧ tt.2 ∉ matched ∧
      (bestCandidate mode matched pn po ut).1 = oracleScore mode pn po tt.1 tt.2 := by
  rcases (bcFoldl_spec mode matched pn po ut (0, none)).2 with heq | ⟨tt', h3, h4, h5, h6⟩
  · rw [bestCandidate, heq] at h
    simp at h
  · rw [bestCandidate] at h
    rw [h5] at h
    obtain rfl : tt' = tt := by injection h
    rw [bestCandidate]
    exact ⟨h3, h4, h6⟩

theorem bestCandidate_le_one (mode : SimMode) (matched : List String) (pn po : String)
    (ut : List (String × String))
    (Hsim : ∀ pn' po' tn tg, oracleScore mode pn' po' tn tg ≤ 1) :
    (bestCandidate mode matched pn po ut).1 ≤ 1 := by
  rcases (bcFoldl_spec mode matched pn po ut (0, none)).2 with heq | ⟨tt', _, _, _, h6⟩
  · rw [bestCandidate, heq]
    norm_num
  · rw [bestCandidate, h6]
    exact Hsim pn po tt'.1 tt'.2

/-- Structural invariant of the fuzzy loop state: claimed truth names are
distinct original names of `unmatched_truth`, they are exactly the truth
names recorded in `match_details`, and every recorded match pairs a
predicted item with an `unmatched_truth` entry whose normalized name is
non-empty and whose score exceeds the 0.7 threshold. -/
def StructInv (ut : List (String × String)) (st : FuzzyState) : Prop :=
  st.matchedTruth.Nodup ∧
  (∀ x ∈ st.matchedTruth, x ∈ ut.map Prod.snd) ∧
  st.matchedTruth = (st.matchDetails.map (fun d => d.2.1)).reverse ∧
  (∀ d ∈ st.matchDetails, ∃ tn, (tn, d.2.1) ∈ ut ∧ tn ≠ "" ∧ 7 / 10 < d.2.2)

theorem fuzzyStep_struct (mode : SimMode) (ut : List (String × String))
    (st : FuzzyState) (pp : String × String) (h : StructInv ut st) :
    StructInv ut (fuzzyStep mode ut st pp) := by
  simp only [fuzzyStep]
  split
  · rename_i tt heq
    by_cases hcond : 7 / 10 < (bestCandidate mode st.matchedTruth pp.1 pp.2 ut).1 ∧ tt.1 ≠ ""
    · rw [if_pos hcond]
      obtain ⟨hmem, hnm, hval⟩ := bestCandidate_some mode st.matchedTruth pp.1 pp.2 ut tt heq
      obtain ⟨hnd, hsub, hlink, hdet⟩ := h
      refine ⟨List.nodup_cons.mpr ⟨hnm, hnd⟩, ?_, ?_, ?_⟩
      · intro x hx
        rcases List.mem_cons.1 hx with hx | hx
        · exact hx ▸ List.mem_map.mpr ⟨tt, hmem, rfl⟩
        · exact hsub x hx
      · simp only [List.map_append, List.reverse_append, List.map_cons, List.map_nil,
          List.reverse_cons, List.reverse_nil, List.nil_append, List.singleton_append]
        rw [← hlink]
      · intro d hd
        rcases List.mem_append.1 hd with hd | hd
        · exact hdet d hd
        · have hdval : d = (pp.2, tt.2, (bestCandidate mode st.matchedTruth pp.1 pp.2 ut).1) := by
            simpa using hd
          subst hdval
          refine ⟨tt.1, ?_, hcond.2, hcond.1⟩
          simpa using hmem
    · rw [if_neg hcond]
      exact h
  · exact h

theorem fuzzyFoldl_struct (mode : SimMode) (ut : List (String × String))
    (ups : List (String × String)) :
    ∀ st : FuzzyState, StructInv ut st →
      StructInv ut (ups.foldl (fuzzyStep mode ut) st) := by
  induction ups with
  | nil => intro st h; exact h
  | cons pp ups ih =>
    intro st h
    rw [List.foldl_cons]
    exact ih _ (fuzzyStep_struct mode ut st pp h)

theorem fuzzyLoop_struct (mode : SimMode) (ut ups : List (String × String)) :
    StructInv ut (fuzzyLoop mode ut ups) := by
  have hinit : StructInv ut (⟨0, [], []⟩ : FuzzyState) := by
    refine ⟨List.nodup_nil, ?_, rfl, ?_⟩ <;> simp
  exact fuzzyFoldl_struct mode ut ups _ hinit

/-- Numeric invariant: the fuzzy score is non-negative and bounded by the
number of claimed truth names. -/
def NumInv (st : FuzzyState) : Prop :=
  0 ≤ st.fuzzyScore ∧ st.fuzzyScore ≤ (st.matchedTruth.length : ℚ)

theorem fuzzyStep_num (mode : SimMode) (ut : List (String × String))
    (Hsim : ∀ pn po tn tg, oracleScore mode pn po tn tg ≤ 1)
    (st : FuzzyState) (pp : String × String) (h : NumInv st) :
    NumInv (fuzzyStep mode ut st pp) := by
  simp only [fuzzyStep]
  split
  · rename_i tt heq
    by_cases hcond : 7 / 10 < (bestCandidate mode st.matchedTruth pp.1 pp.2 ut).1 ∧ tt.1 ≠ ""
    · rw [if_pos hcond]
      have hq1 : (bestCandidate mode st.matchedTruth pp.1 pp.2 ut).1 ≤ 1 :=
        bestCandidate_le_one mode st.matchedTruth pp.1 pp.2 ut Hsim
      have hq0 : (0 : ℚ) < (bestCandidate mode st.matchedTruth pp.1 pp.2 ut).1 :=
        lt_trans (by norm_num) hcond.1
      obtain ⟨ha, hb⟩ := h
      constructor
      · exact add_nonneg ha (le_of_lt hq0)
      · simp only [FuzzyState.fuzzyScore, FuzzyState.matchedTruth, List.length_cons]
        push_cast
        linarith
    · rw [if_neg hcond]
      exact h
  · exact h

theorem fuzzyFoldl_num (mode : SimMode) (ut : List (String × String))
    (Hsim : ∀ pn po tn tg, oracleScore mode pn po tn tg ≤ 1)
    (ups : List (String × String)) :
    ∀ st : FuzzyState, NumInv st → NumInv (ups.foldl (fuzzyStep mode ut) st) := by
  induction ups with
  | nil => intro st h; exact h
  | cons pp ups ih =>
    intro st h
    rw [List.foldl_cons]
    exact ih _ (fuzzyStep_num mode ut Hsim st pp h)

theorem fuzzyLoop_num (mode : SimMode) (ut ups : List (String × String))
    (Hsim : ∀ pn po tn tg, oracleScore mode pn po tn tg ≤ 1) :
    NumInv (fuzzyLoop mode ut ups) :=
  fuzzyFoldl_num mode ut Hsim ups _ ⟨le_refl 0, by simp⟩

theorem fuzzyStep_score_le (mode : SimMode) (ut : List (String × String))
    (Hsim : ∀ pn po tn tg, oracleScore mode pn po tn tg ≤ 1)
    (st : FuzzyState) (pp : String × String) :
    (fuzzyStep mode ut st pp).fuzzyScore ≤ st.fuzzyScore + 1 := by
  simp only [fuzzyStep]
  split
  · rename_i tt heq
    split
    · have hq1 : (bestCandidate mode st.matchedTruth pp.1 pp.2 ut).1 ≤ 1 :=
        bestCandidate_le_one mode st.matchedTruth pp.1 pp.2 ut Hsim
      simp only [FuzzyState.fuzzyScore]
      linarith
    · linarith
  · linarith

theorem fuzzyStep_score_ge (mode : SimMode) (ut : List (String × String))
    (st : FuzzyState) (pp : String × String) :
    st.fuzzyScore ≤ (fuzzyStep mode ut st pp).fuzzyScore := by
  simp only [fuzzyStep]
  split
  · rename_i tt heq
    split
    · rename_i hcond
      have hq0 : (0 : ℚ) < (bestCandidate mode st.matchedTruth pp.1 pp.2 ut).1 :=
        lt_trans (by norm_num) hcond.1
      simp only [FuzzyState.fuzzyScore]
      linarith
    · linarith
  · linarith

theorem fuzzyFoldl_score_le (mode : SimMode) (ut : List (String × String))
    (Hsim : ∀ pn po tn tg, oracleScore mode pn po tn tg ≤ 1)
    (ups : List (String × String)) :
    ∀ st : FuzzyState,
      (ups.foldl (fuzzyStep mode ut) st).fuzzyScore ≤ st.fuzzyScore + ups.length := by
  induction ups with
  | nil => intro st; simp
  | cons pp ups ih =>
    intro st
    rw [List.foldl_cons]
    have h1 := ih (fuzzyStep mode ut st pp)
    have h2 := fuzzyStep_score_le mode ut Hsim st pp
    simp only [List.length_cons]
    push_cast
    push_cast at h1
    linarith

theorem fuzzyLoop_score_le (mode : SimMode) (ut ups : List (String × String))
    (Hsim : ∀ pn po tn tg, oracleScore mode pn po tn tg ≤ 1) :
    (fuzzyLoop mode ut ups).fuzzyScore ≤ (ups.length : ℚ) := by
  have h := fuzzyFoldl_score_le mode ut Hsim ups ⟨0, [], []⟩
  simpa [fuzzyLoop] using h

theorem fuzzyStep_details (mode : SimMode) (ut : List (String × String))
    (st : FuzzyState) (pp : String × String) :
    (fuzzyStep mode ut st pp).matchDetails = st.matchDetails ∨
      ∃ tg q, (fuzzyStep mode ut st pp).matchDetails =
        st.matchDetails ++ [(pp.2, tg, q)] := by
  simp only [fuzzyStep]
  split
  · rename_i tt heq
    split
    · exact Or.inr ⟨tt.2, _, rfl⟩
    · exact Or.inl rfl
  · exact Or.inl rfl

theorem fuzzyFoldl_details (mode : SimMode) (ut : List (String × String))
    (ups : List (String × String)) :
    ∀ st : FuzzyState, ∃ Δ,
      (ups.foldl (fuzzyStep mode ut) st).matchDetails = st.matchDetails ++ Δ ∧
      List.Sublist (Δ.map (fun d => d.1)) (ups.map Prod.snd) := by
  induction ups with
  | nil => intro st; exact ⟨[], by simp, by simp⟩
  | cons pp ups ih =>
    intro st
    obtain ⟨Δ, h1, h2⟩ := ih (fuzzyStep mode ut st pp)
    rw [List.foldl_cons]
    rcases fuzzyStep_details mode ut st pp with hst | ⟨tg, q, hst⟩
    · refine ⟨Δ, by rw [h1, hst], ?_⟩
      exact List.Sublist.cons pp.2 h2
    · refine ⟨(pp.2, tg, q) :: Δ, ?_, ?_⟩
      · rw [h1, hst, List.append_assoc]
        rfl
      · simpa using List.Sublist.cons₂ pp.2 h2

theorem fuzzyLoop_details (mode : SimMode) (ut ups : List (String × String)) :
    List.Sublist ((fuzzyLoop mode ut ups).matchDetails.map (fun d => d.1))
      (ups.map Prod.snd) := by
  obtain ⟨Δ, h1, h2⟩ := fuzzyFoldl_details mode ut ups ⟨0, [], []⟩
  rw [fuzzyLoop, h1]
  simpa using h2

/-! ### Lemmas about the unmatched lists and exact matches -/

theorem mem_zip_map {α β : Type} (f : α → β) (l : List α) (a : β) (b : α)
    (h : (a, b) ∈ (l.map f).zip l) : a = f b ∧ b ∈ l := by
  induction l with
  | nil => simp at h
  | cons c cs ih =>
    simp only [List.map_cons, List.zip_cons_cons, List.mem_cons] at h
    rcases h with h | h
    · rw [Prod.mk.injEq] at h
      obtain ⟨h1, h2⟩ := h
      subst h2
      exact ⟨h1, List.mem_cons_self _ _⟩
    · obtain ⟨h1, h2⟩ := ih h
      exact ⟨h1, List.mem_cons_of_mem _ h2⟩

theorem unmatchedTruthOf_mem (predicted ground_truth : List String)
    (tn tg : String) (h : (tn, tg) ∈ unmatchedTruthOf predicted ground_truth) :
    tn = normalize_eif_name tg ∧ tg ∈ ground_truth ∧
      tn ∉ normalizedList predicted := by
  rw [unmatchedTruthOf, List.mem_filter] at h
  obtain ⟨hz, hp⟩ := h
  obtain ⟨h1, h2⟩ := mem_zip_map normalize_eif_name ground_truth tn tg hz
  exact ⟨h1, h2, by simpa using hp⟩

theorem unmatchedPredOf_mem (predicted ground_truth : List String)
    (pn pg : String) (h : (pn, pg) ∈ unmatchedPredOf predicted ground_truth) :
    pn = normalize_eif_name pg ∧ pg ∈ predicted ∧
      pn ∉ normalizedList ground_truth := by
  rw [unmatchedPredOf, List.mem_filter] at h
  obtain ⟨hz, hp⟩ := h
  obtain ⟨h1, h2⟩ := mem_zip_map normalize_eif_name predicted pn pg hz
  exact ⟨h1, h2, by simpa using hp⟩

theorem zip_filter_length {α β : Type} (q : α → Bool) (l1 : List α) :
    ∀ l2 : List β, l1.length = l2.length →
      ((l1.zip l2).filter (fun p => q p.1)).length = (l1.filter q).length := by
  induction l1 with
  | nil => intro l2 h; simp
  | cons a as ih =>
    intro l2 h
    cases l2 with
    | nil => simp at h
    | cons b bs =>
      simp only [List.zip_cons_cons, List.filter_cons]
      by_cases hq : q a
      · simp [hq, ih bs (by simpa using h)]
      · simp [hq, ih bs (by simpa using h)]

theorem unmatchedPredOf_length (predicted ground_truth : List String) :
    (unmatchedPredOf predicted ground_truth).length =
      ((normalizedList predicted).filter
        (fun x => decide (x ∉ normalizedList ground_truth))).length := by
  rw [unmatchedPredOf]
  exact zip_filter_length (fun x => decide (x ∉ normalizedList ground_truth))
    (normalizedList predicted) predicted (by simp [normalizedList])

theorem unmatchedTruthOf_length (predicted ground_truth : List String) :
    (unmatchedTruthOf predicted ground_truth).length =
      ((normalizedList ground_truth).filter
        (fun x => decide (x ∉ normalizedList predicted))).length := by
  rw [unmatchedTruthOf]
  exact zip_filter_length (fun x => decide (x ∉ normalizedList predicted))
    (normalizedList ground_truth) ground_truth (by simp [normalizedList])

theorem inter_toFinset_eq (A B : List String) :
    A.toFinset ∩ B.toFinset = (B.filter (fun x => decide (x ∈ A))).toFinset := by
  ext x
  simp only [Finset.mem_inter, List.mem_toFinset, List.mem_filter, decide_eq_true_eq]
  tauto

theorem exactOf_le_pred (predicted ground_truth : List String) :
    exactOf predicted ground_truth ≤
      ((normalizedList predicted).filter
        (fun x => decide (x ∈ normalizedList ground_truth))).length := by
  rw [exactOf, Finset.inter_comm, inter_toFinset_eq]
  exact List.toFinset_card_le _

theorem exactOf_le_truth (predicted ground_truth : List String) :
    exactOf predicted ground_truth ≤
      ((normalizedList ground_truth).filter
        (fun x => decide (x ∈ normalizedList predicted))).length := by
  rw [exactOf, inter_toFinset_eq]
  exact List.toFinset_card_le _

theorem filter_not_length {α : Type} (A : List α) (p : α → Prop) [DecidablePred p] :
    (A.filter (fun x => decide (p x))).length +
      (A.filter (fun x => decide (¬ p x))).length = A.length := by
  have h := List.length_eq_length_filter_add (l := A) (fun x => decide (p x))
  have h2 : A.filter (fun x => !(decide (p x))) = A.filter (fun x => decide (¬ p x)) := by
    apply List.filter_congr
    intro x _
    simp
  rw [← h2]
  omega

/-! ### Unfolding `calculate_eif_similarity` in the main (both non-empty) case -/

theorem calculate_matches (mode : SimMode) (p t : List String) (hp : p ≠ []) (ht : t ≠ []) :
    (calculate_eif_similarity mode p t).semantic_matches =
      (loopOf mode p t).matchDetails := by
  simp only [calculate_eif_similarity]
  rw [if_neg (fun hh => ht hh.1), if_neg (by rintro (hh | hh) <;> [exact ht hh; exact hp hh])]

theorem calculate_fuzzy (mode : SimMode) (p t : List String) (hp : p ≠ []) (ht : t ≠ []) :
    (calculate_eif_similarity mode p t).fuzzy_score = (loopOf mode p t).fuzzyScore := by
  simp only [calculate_eif_similarity]
  rw [if_neg (fun hh => ht hh.1), if_neg (by rintro (hh | hh) <;> [exact ht hh; exact hp hh])]

theorem calculate_exact (mode : SimMode) (p t : List String) (hp : p ≠ []) (ht : t ≠ []) :
    (calculate_eif_similarity mode p t).exact_matches = exactOf p t := by
  simp only [calculate_eif_similarity]
  rw [if_neg (fun hh => ht hh.1), if_neg (by rintro (hh | hh) <;> [exact ht hh; exact hp hh])]

theorem calculate_precision (mode : SimMode) (p t : List String) (hp : p ≠ []) (ht : t ≠ []) :
    (calculate_eif_similarity mode p t).precision =
      ((exactOf p t : ℚ) + (loopOf mode p t).fuzzyScore) / (p.length : ℚ) := by
  simp only [calculate_eif_similarity]
  rw [if_neg (fun hh => ht hh.1), if_neg (by rintro (hh | hh) <;> [exact ht hh; exact hp hh])]
  simp [hp]

theorem calculate_recall (mode : SimMode) (p t : List String) (hp : p ≠ []) (ht : t ≠ []) :
    (calculate_eif_similarity mode p t).recall' =
      ((exactOf p t : ℚ) + (loopOf mode p t).fuzzyScore) / (t.length : ℚ) := by
  simp only [calculate_eif_similarity]
  rw [if_neg (fun hh => ht hh.1), if_neg (by rintro (hh | hh) <;> [exact ht hh; exact hp hh])]
  simp [ht]

theorem calculate_f1 (mode : SimMode) (p t : List String) (hp : p ≠ []) (ht : t ≠ []) :
    (calculate_eif_similarity mode p t).f1_score =
      (if (calculate_eif_similarity mode p t).precision +
            (calculate_eif_similarity mode p t).recall' = 0 then 0
        else 2 * ((calculate_eif_similarity mode p t).precision *
            (calculate_eif_similarity mode p t).recall') /
          ((calculate_eif_similarity mode p t).precision +
            (calculate_eif_similarity mode p t).recall')) := by
  simp only [calculate_eif_similarity]
  rw [if_neg (fun hh => ht hh.1), if_neg (by rintro (hh | hh) <;> [exact ht hh; exact hp hh])]

/-! ### Numeric bounds for the score report -/

theorem nodup_length_le {α : Type} [DecidableEq α] (l l' : List α)
    (h : l.Nodup) (hsub : ∀ x ∈ l, x ∈ l') : l.length ≤ l'.length := by
  have h1 : l.toFinset.card = l.length := List.toFinset_card_of_nodup h
  have h2 : l.toFinset ⊆ l'.toFinset := by
    intro x hx
    simp only [List.mem_toFinset] at hx ⊢
    exact hsub x hx
  have h3 := Finset.card_le_card h2
  have h4 := l'.toFinset_card_le
  omega

theorem harmonic_bound (p r : ℚ) (hp0 : 0 ≤ p) (hp1 : p ≤ 1) (hr0 : 0 ≤ r) (hr1 : r ≤ 1) :
    0 ≤ (if p + r = 0 then (0 : ℚ) else 2 * (p * r) / (p + r)) ∧
      (if p + r = 0 then (0 : ℚ) else 2 * (p * r) / (p + r)) ≤ 1 := by
  split_ifs with h
  · norm_num
  · have hpr : 0 < p + r := lt_of_le_of_ne (add_nonneg hp0 hr0) (Ne.symm h)
    constructor
    · apply div_nonneg _ (le_of_lt hpr)
      positivity
    · rw [div_le_one hpr]
      nlinarith

theorem total_le_pred (mode : SimMode) (p t : List String)
    (Hsim : ∀ pn po tn tg, oracleScore mode pn po tn tg ≤ 1) :
    (exactOf p t : ℚ) + (loopOf mode p t).fuzzyScore ≤ (p.length : ℚ) := by
  have hF : (loopOf mode p t).fuzzyScore ≤ ((unmatchedPredOf p t).length : ℚ) :=
    fuzzyLoop_score_le mode _ _ Hsim
  have hE : exactOf p t ≤
      ((normalizedList p).filter (fun x => decide (x ∈ normalizedList t))).length :=
    exactOf_le_pred p t
  have hsplit :
      ((normalizedList p).filter (fun x => decide (x ∈ normalizedList t))).length +
        ((normalizedList p).filter (fun x => decide (x ∉ normalizedList t))).length =
      (normalizedList p).length :=
    filter_not_length (normalizedList p) (fun x => x ∈ normalizedList t)
  have hlen : (normalizedList p).length = p.length := by simp [normalizedList]
  have hu := unmatchedPredOf_length p t
  have hle : (unmatchedPredOf p t).length + exactOf p t ≤ p.length := by omega
  have hq : ((unmatchedPredOf p t).length : ℚ) + (exactOf p t : ℚ) ≤ (p.length : ℚ) := by
    exact_mod_cast hle
  linarith

theorem total_le_truth (mode : SimMode) (p t : List String)
    (Hsim : ∀ pn po tn tg, oracleScore mode pn po tn tg ≤ 1) :
    (exactOf p t : ℚ) + (loopOf mode p t).fuzzyScore ≤ (t.length : ℚ) := by
  have hnum : NumInv (loopOf mode p t) :=
    fuzzyLoop_num mode (unmatchedTruthOf p t) (unmatchedPredOf p t) Hsim
  have hst : StructInv (unmatchedTruthOf p t) (loopOf mode p t) :=
    fuzzyLoop_struct mode (unmatchedTruthOf p t) (unmatchedPredOf p t)
  have hmlen : (loopOf mode p t).matchedTruth.length ≤ (unmatchedTruthOf p t).length := by
    have h1 := nodup_length_le (loopOf mode p t).matchedTruth
      ((unmatchedTruthOf p t).map Prod.snd) hst.1 hst.2.1
    simpa using h1
  have hF : (loopOf mode p t).fuzzyScore ≤ ((unmatchedTruthOf p t).length : ℚ) :=
    le_trans hnum.2 (by exact_mod_cast hmlen)
  have hE : exactOf p t ≤
      ((normalizedList t).filter (fun x => decide (x ∈ normalizedList p))).length :=
    exactOf_le_truth p t
  have hsplit :
      ((normalizedList t).filter (fun x => decide (x ∈ normalizedList p))).length +
        ((normalizedList t).filter (fun x => decide (x ∉ normalizedList p))).length =
      (normalizedList t).length :=
    filter_not_length (normalizedList t) (fun x => x ∈ normalizedList p)
  have hlen : (normalizedList t).length = t.length := by simp [normalizedList]
  have hu := unmatchedTruthOf_length p t
  have hle : (unmatchedTruthOf p t).length + exactOf p t ≤ t.length := by omega
  have hq : ((unmatchedTruthOf p t).length : ℚ) + (exactOf p t : ℚ) ≤ (t.length : ℚ) := by
    exact_mod_cast hle
  linarith

/-! ### Evaluation of the fuzzy loop on singleton lists -/

theorem calc_single (f : String → String → ℚ) (x y : String)
    (hxy : normalize_eif_name x ≠ normalize_eif_name y) (hs0 : 0 < f x y) :
    (calculate_eif_similarity (.semantic f) [x] [y]).semantic_matches =
      (if 7 / 10 < f x y ∧ normalize_eif_name y ≠ "" then [(x, y, f x y)] else []) ∧
    (calculate_eif_similarity (.semantic f) [x] [y]).fuzzy_score =
      (if 7 / 10 < f x y ∧ normalize_eif_name y ≠ "" then f x y else 0) := by
  have hup : unmatchedPredOf [x] [y] = [(normalize_eif_name x, x)] := by
    simp [unmatchedPredOf, normalizedList, hxy]
  have hut : unmatchedTruthOf [x] [y] = [(normalize_eif_name y, y)] := by
    simp [unmatchedTruthOf, normalizedList, Ne.symm hxy]
  have hbc : bestCandidate (.semantic f) [] (normalize_eif_name x) x
      [(normalize_eif_name y, y)] = (f x y, some (normalize_eif_name y, y)) := by
    simp [bestCandidate, bcStep, oracleScore, hs0]
  have hloop : loopOf (.semantic f) [x] [y] =
      (if 7 / 10 < f x y ∧ normalize_eif_name y ≠ ""
        then (⟨f x y, [y], [(x, y, f x y)]⟩ : FuzzyState)
        else ⟨0, [], []⟩) := by
    rw [loopOf, hup, hut, fuzzyLoop]
    rw [List.foldl_cons, List.foldl_nil]
    simp only [fuzzyStep, hbc]
    by_cases hcond : 7 / 10 < f x y ∧ normalize_eif_name y ≠ ""
    · simp [hcond]
    · simp [hcond]
  have hp : ([x] : List String) ≠ [] := by simp
  have ht : ([y] : List String) ≠ [] := by simp
  rw [calculate_matches _ _ _ hp ht, calculate_fuzzy _ _ _ hp ht, hloop]
  by_cases hcond : 7 / 10 < f x y ∧ normalize_eif_name y ≠ ""
  · simp [hcond]
  · simp [hcond]

/-! ### Claim theorems for `calculate_eif_similarity` -/

/-- C1: for every predicted list, every ground-truth list and every
similarity oracle whose scores lie in [0,1], the report of
`calculate_eif_similarity` satisfies `0 ≤ precision ≤ 1`,
`0 ≤ recall ≤ 1` and `0 ≤ f1 ≤ 1`; and on non-empty inputs
`precision = (exact_matches + fuzzy_score) / len(predicted)`,
`recall = (exact_matches + fuzzy_score) / len(ground_truth)` and
`f1 = 2·p·r/(p+r)` when `p+r > 0`, else `0`. -/
theorem claim1_score_report_bounds (mode : SimMode) (predicted ground_truth : List String)
    (Hsim : ∀ pn po tn tg, 0 ≤ oracleScore mode pn po tn tg ∧
      oracleScore mode pn po tn tg ≤ 1) :
    (0 ≤ (calculate_eif_similarity mode predicted ground_truth).precision ∧
      (calculate_eif_similarity mode predicted ground_truth).precision ≤ 1) ∧
    (0 ≤ (calculate_eif_similarity mode predicted ground_truth).recall' ∧
      (calculate_eif_similarity mode predicted ground_truth).recall' ≤ 1) ∧
    (0 ≤ (calculate_eif_similarity mode predicted ground_truth).f1_score ∧
      (calculate_eif_similarity mode predicted ground_truth).f1_score ≤ 1) ∧
    (predicted ≠ [] → ground_truth ≠ [] →
      (calculate_eif_similarity mode predicted ground_truth).precision =
        (((calculate_eif_similarity mode predicted ground_truth).exact_matches : ℚ) +
          (calculate_eif_similarity mode predicted ground_truth).fuzzy_score) /
          (predicted.length : ℚ) ∧
      (calculate_eif_similarity mode predicted ground_truth).recall' =
        (((calculate_eif_similarity mode predicted ground_truth).exact_matches : ℚ) +
          (calculate_eif_similarity mode predicted ground_truth).fuzzy_score) /
          (ground_truth.length : ℚ) ∧
      (calculate_eif_similarity mode predicted ground_truth).f1_score =
        (if (calculate_eif_similarity mode predicted ground_truth).precision +
              (calculate_eif_similarity mode predicted ground_truth).recall' = 0 then 0
          else 2 * ((calculate_eif_similarity mode predicted ground_truth).precision *
              (calculate_eif_similarity mode predicted ground_truth).recall') /
            ((calculate_eif_similarity mode predicted ground_truth).precision +
              (calculate_eif_similarity mode predicted ground_truth).recall'))) := by
  have Hsim1 : ∀ pn po tn tg, oracleScore mode pn po tn tg ≤ 1 :=
    fun a b c d => (Hsim a b c d).2
  by_cases hp : predicted = []
  · by_cases ht : ground_truth = []
    · subst hp; subst ht
      have hcalc : calculate_eif_similarity mode [] [] = ⟨1, 1, 1, 0, 0, []⟩ := by
        simp [calculate_eif_similarity]
      rw [hcalc]
      exact ⟨⟨by norm_num, by norm_num⟩, ⟨by norm_num, by norm_num⟩,
        ⟨by norm_num, by norm_num⟩, fun h => absurd rfl h⟩
    · subst hp
      have hcalc : calculate_eif_similarity mode [] ground_truth = ⟨0, 0, 0, 0, 0, []⟩ := by
        simp [calculate_eif_similarity, ht]
      rw [hcalc]
      exact ⟨⟨by norm_num, by norm_num⟩, ⟨by norm_num, by norm_num⟩,
        ⟨by norm_num, by norm_num⟩, fun h => absurd rfl h⟩
  · by_cases ht : ground_truth = []
    · subst ht
      have hcalc : calculate_eif_similarity mode predicted [] = ⟨0, 0, 0, 0, 0, []⟩ := by
        simp [calculate_eif_similarity, hp]
      rw [hcalc]
      exact ⟨⟨by norm_num, by norm_num⟩, ⟨by norm_num, by norm_num⟩,
        ⟨by norm_num, by norm_num⟩, fun _ h => absurd rfl h⟩
    · have hprec := calculate_precision mode predicted ground_truth hp ht
      have hrec := calculate_recall mode predicted ground_truth hp ht
      have hf1 := calculate_f1 mode predicted ground_truth hp ht
      have hlp : (0 : ℚ) < (predicted.length : ℚ) := by
        exact_mod_cast List.length_pos.mpr hp
      have hlt : (0 : ℚ) < (ground_truth.length : ℚ) := by
        exact_mod_cast List.length_pos.mpr ht
      have hE0 : (0 : ℚ) ≤ (exactOf predicted ground_truth : ℚ) := Nat.cast_nonneg _
      have hF0 : (0 : ℚ) ≤ (loopOf mode predicted ground_truth).fuzzyScore :=
        (fuzzyLoop_num mode (unmatchedTruthOf predicted ground_truth)
          (unmatchedPredOf predicted ground_truth) Hsim1).1
      have htp := total_le_pred mode predicted ground_truth Hsim1
      have htt := total_le_truth mode predicted ground_truth Hsim1
      have hprec0 : 0 ≤ (calculate_eif_similarity mode predicted ground_truth).precision := by
        rw [hprec]; exact div_nonneg (add_nonneg hE0 hF0) (le_of_lt hlp)
      have hprec1 : (calculate_eif_similarity mode predicted ground_truth).precision ≤ 1 := by
        rw [hprec]; exact (div_le_one hlp).mpr htp
      have hrec0 : 0 ≤ (calculate_eif_similarity mode predicted ground_truth).recall' := by
        rw [hrec]; exact div_nonneg (add_nonneg hE0 hF0) (le_of_lt hlt)
      have hrec1 : (calculate_eif_similarity mode predicted ground_truth).recall' ≤ 1 := by
        rw [hrec]; exact (div_le_one hlt).mpr htt
      have hf1b := harmonic_bound _ _ hprec0 hprec1 hrec0 hrec1
      refine ⟨⟨hprec0, hprec1⟩, ⟨hrec0, hrec1⟩, ⟨?_, ?_⟩, fun _ _ => ⟨?_, ?_, hf1⟩⟩
      · rw [hf1]; exact hf1b.1
      · rw [hf1]; exact hf1b.2
      · rw [calculate_exact mode predicted ground_truth hp ht,
          calculate_fuzzy mode predicted ground_truth hp ht]
        exact hprec
      · rw [calculate_exact mode predicted ground_truth hp ht,
          calculate_fuzzy mode predicted ground_truth hp ht]
        exact hrec

theorem claim1_score_report_bounds_witness :
    (0 ≤ (calculate_eif_similarity (.semantic (fun _ _ => (1 : ℚ) / 2)) ["a"] ["b"]).precision ∧
      (calculate_eif_similarity (.semantic (fun _ _ => (1 : ℚ) / 2)) ["a"] ["b"]).precision ≤ 1) ∧
    (0 ≤ (calculate_eif_similarity (.semantic (fun _ _ => (1 : ℚ) / 2)) ["a"] ["b"]).recall' ∧
      (calculate_eif_similarity (.semantic (fun _ _ => (1 : ℚ) / 2)) ["a"] ["b"]).recall' ≤ 1) ∧
    (0 ≤ (calculate_eif_similarity (.semantic (fun _ _ => (1 : ℚ) / 2)) ["a"] ["b"]).f1_score ∧
      (calculate_eif_similarity (.semantic (fun _ _ => (1 : ℚ) / 2)) ["a"] ["b"]).f1_score ≤ 1) ∧
    ((["a"] : List String) ≠ [] → (["b"] : List String) ≠ [] →
      (calculate_eif_similarity (.semantic (fun _ _ => (1 : ℚ) / 2)) ["a"] ["b"]).precision =
        (((calculate_eif_similarity (.semantic (fun _ _ => (1 : ℚ) / 2)) ["a"] ["b"]).exact_matches : ℚ) +
          (calculate_eif_similarity (.semantic (fun _ _ => (1 : ℚ) / 2)) ["a"] ["b"]).fuzzy_score) /
          ((["a"] : List String).length : ℚ) ∧
      (calculate_eif_similarity (.semantic (fun _ _ => (1 : ℚ) / 2)) ["a"] ["b"]).recall' =
        (((calculate_eif_similarity (.semantic (fun _ _ => (1 : ℚ) / 2)) ["a"] ["b"]).exact_matches : ℚ) +
          (calculate_eif_similarity (.semantic (fun _ _ => (1 : ℚ) / 2)) ["a"] ["b"]).fuzzy_score) /
          ((["b"] : List String).length : ℚ) ∧
      (calculate_eif_similarity (.semantic (fun _ _ => (1 : ℚ) / 2)) ["a"] ["b"]).f1_score =
        (if (calculate_eif_similarity (.semantic (fun _ _ => (1 : ℚ) / 2)) ["a"] ["b"]).precision +
              (calculate_eif_similarity (.semantic (fun _ _ => (1 : ℚ) / 2)) ["a"] ["b"]).recall' = 0 then 0
          else 2 * ((calculate_eif_similarity (.semantic (fun _ _ => (1 : ℚ) / 2)) ["a"] ["b"]).precision *
              (calculate_eif_similarity (.semantic (fun _ _ => (1 : ℚ) / 2)) ["a"] ["b"]).recall') /
            ((calculate_eif_similarity (.semantic (fun _ _ => (1 : ℚ) / 2)) ["a"] ["b"]).precision +
              (calculate_eif_similarity (.semantic (fun _ _ => (1 : ℚ) / 2)) ["a"] ["b"]).recall'))) :=
  claim1_score_report_bounds (.semantic (fun _ _ => (1 : ℚ) / 2)) ["a"] ["b"]
    (fun _ _ _ _ => ⟨by norm_num [oracleScore], by norm_num [oracleScore]⟩)

/-- C2: on two empty lists `calculate_eif_similarity` returns
`precision = recall = f1 = 1.0` with `exact_matches = 0` and
`fuzzy_score = 0.0`; when exactly one list is empty it returns
`precision = recall = f1 = 0.0`. -/
theorem claim2_empty_cases (mode : SimMode) :
    calculate_eif_similarity mode [] [] = ⟨1, 1, 1, 0, 0, []⟩ ∧
    (∀ predicted ground_truth : List String,
      (predicted = [] ∧ ground_truth ≠ []) ∨ (predicted ≠ [] ∧ ground_truth = []) →
      calculate_eif_similarity mode predicted ground_truth = ⟨0, 0, 0, 0, 0, []⟩) := by
  constructor
  · simp [calculate_eif_similarity]
  · rintro p t (⟨hp, ht⟩ | ⟨hp, ht⟩)
    · subst hp; simp [calculate_eif_similarity, ht]
    · subst ht; simp [calculate_eif_similarity, hp]

theorem claim2_empty_cases_witness :
    calculate_eif_similarity .lexical ["a"] [] = ⟨0, 0, 0, 0, 0, []⟩ :=
  (claim2_empty_cases .lexical).2 ["a"] [] (Or.inr ⟨by simp, rfl⟩)

/-- C3 counterexample: the fuzzy stage does not accept every predicted item
whose best score strictly exceeds 0.7.  With an oracle scoring 9/10, a
predicted item whose best truth item normalizes to the empty string (here
`"(x)"`, whose bracketed content is stripped away) stays unmatched even
though its best score exceeds the threshold. -/
theorem claim3_counterexample :
    (7 : ℚ) / 10 < (9 : ℚ) / 10 ∧
    (calculate_eif_similarity (.semantic (fun _ _ => (9 : ℚ) / 10))
      ["abc"] ["(x)"]).semantic_matches = [] ∧
    (calculate_eif_similarity (.semantic (fun _ _ => (9 : ℚ) / 10))
      ["abc"] ["(x)"]).fuzzy_score = 0 := by
  have h := calc_single (fun _ _ => (9 : ℚ) / 10) "abc" "(x)" (by decide) (by norm_num)
  have hC : ¬((7 : ℚ) / 10 < (fun (_ _ : String) => (9 : ℚ) / 10) "abc" "(x)" ∧
      normalize_eif_name "(x)" ≠ "") := fun hc => hc.2 (by decide)
  rw [if_neg hC, if_neg hC] at h
  exact ⟨by norm_num, h.1, h.2⟩

/-- C3 (amended): in the fuzzy-matching stage a predicted item is accepted
as FUZZY exactly when its best remaining-truth score strictly exceeds 0.7
AND the best match's normalized name is non-empty: with a constant oracle
scoring `s` on the pair `"x"`/`"y"` (whose normalized names are non-empty),
a score exactly `s ≤ 0.7` (in particular exactly 0.7) yields no match,
while `0.7 < s` (in particular 0.70001) yields a match contributing the
raw score `s` to `fuzzy_score`. -/
theorem claim3_threshold_amended (s : ℚ) (hs : 0 < s) :
    ((7 : ℚ) / 10 < s →
      (calculate_eif_similarity (.semantic (fun _ _ => s)) ["x"] ["y"]).semantic_matches =
        [("x", "y", s)] ∧
      (calculate_eif_similarity (.semantic (fun _ _ => s)) ["x"] ["y"]).fuzzy_score = s) ∧
    (s ≤ (7 : ℚ) / 10 →
      (calculate_eif_similarity (.semantic (fun _ _ => s)) ["x"] ["y"]).semantic_matches = [] ∧
      (calculate_eif_similarity (.semantic (fun _ _ => s)) ["x"] ["y"]).fuzzy_score = 0) := by
  have h := calc_single (fun _ _ => s) "x" "y" (by decide) hs
  constructor
  · intro hlt
    have hC : (7 : ℚ) / 10 < (fun (_ _ : String) => s) "x" "y" ∧
        normalize_eif_name "y" ≠ "" := ⟨hlt, by decide⟩
    rw [if_pos hC, if_pos hC] at h
    exact h
  · intro hle
    have hC : ¬((7 : ℚ) / 10 < (fun (_ _ : String) => s) "x" "y" ∧
        normalize_eif_name "y" ≠ "") := fun hc => absurd hc.1 (not_lt.mpr hle)
    rw [if_neg hC, if_neg hC] at h
    exact h

theorem claim3_threshold_witness :
    (calculate_eif_similarity (.semantic (fun _ _ => (70001 : ℚ) / 100000))
      ["x"] ["y"]).semantic_matches = [("x", "y", (70001 : ℚ) / 100000)] ∧
    (calculate_eif_similarity (.semantic (fun _ _ => (70001 : ℚ) / 100000))
      ["x"] ["y"]).fuzzy_score = (70001 : ℚ) / 100000 :=
  (claim3_threshold_amended ((70001 : ℚ) / 100000) (by norm_num)).1 (by norm_num)

/-- Evaluation of the fuzzy loop on the duplicated-prediction example:
both copies of `"a"` get fuzzy-matched, to the two distinct truth items. -/
theorem loop_duplicate_eval :
    (loopOf (.semantic (fun _ _ => (4 : ℚ) / 5)) ["a", "a"] ["b", "c"]).matchDetails =
      [("a", "b", (4 : ℚ) / 5), ("a", "c", (4 : ℚ) / 5)] := by
  have hup : unmatchedPredOf ["a", "a"] ["b", "c"] = [("a", "a"), ("a", "a")] := by decide
  have hut : unmatchedTruthOf ["a", "a"] ["b", "c"] = [("b", "b"), ("c", "c")] := by decide
  have hbc1 : bestCandidate (.semantic (fun _ _ => (4 : ℚ) / 5)) [] "a" "a"
      [("b", "b"), ("c", "c")] = ((4 : ℚ) / 5, some ("b", "b")) := by
    simp only [bestCandidate, List.foldl_cons, List.foldl_nil, bcStep, oracleScore]
    norm_num
  have hstep1 : fuzzyStep (.semantic (fun _ _ => (4 : ℚ) / 5)) [("b", "b"), ("c", "c")]
      ⟨0, [], []⟩ ("a", "a") = ⟨(4 : ℚ) / 5, ["b"], [("a", "b", (4 : ℚ) / 5)]⟩ := by
    simp only [fuzzyStep, hbc1]
    norm_num
    all_goals decide
  have hbc2 : bestCandidate (.semantic (fun _ _ => (4 : ℚ) / 5)) ["b"] "a" "a"
      [("b", "b"), ("c", "c")] = ((4 : ℚ) / 5, some ("c", "c")) := by
    simp only [bestCandidate, List.foldl_cons, List.foldl_nil, bcStep, oracleScore]
    norm_num
    all_goals decide
  have hstep2 : fuzzyStep (.semantic (fun _ _ => (4 : ℚ) / 5)) [("b", "b"), ("c", "c")]
      ⟨(4 : ℚ) / 5, ["b"], [("a", "b", (4 : ℚ) / 5)]⟩ ("a", "a") =
      ⟨(4 : ℚ) / 5 + (4 : ℚ) / 5, ["c", "b"],
        [("a", "b", (4 : ℚ) / 5), ("a", "c", (4 : ℚ) / 5)]⟩ := by
    simp only [fuzzyStep, hbc2]
    norm_num
    all_goals decide
  rw [loopOf, hup, hut, fuzzyLoop, List.foldl_cons, List.foldl_cons, List.foldl_nil,
    hstep1, hstep2]

/-- C4 counterexample: a predicted NAME that occurs twice in the predicted
list can appear in two distinct matches; with an oracle scoring 4/5
everywhere, `predicted = ["a", "a"]` and `ground_truth = ["b", "c"]`
produce two matches both carrying the predicted name `"a"`. -/
theorem claim4_counterexample :
    ((calculate_eif_similarity (.semantic (fun _ _ => (4 : ℚ) / 5))
      ["a", "a"] ["b", "c"]).semantic_matches.map (fun d => d.1)) = ["a", "a"] ∧
    ¬ ((calculate_eif_similarity (.semantic (fun _ _ => (4 : ℚ) / 5))
      ["a", "a"] ["b", "c"]).semantic_matches.map (fun d => d.1)).Nodup := by
  have hm : (calculate_eif_similarity (.semantic (fun _ _ => (4 : ℚ) / 5))
      ["a", "a"] ["b", "c"]).semantic_matches =
      [("a", "b", (4 : ℚ) / 5), ("a", "c", (4 : ℚ) / 5)] := by
    rw [calculate_matches _ _ _ (by simp) (by simp), loop_duplicate_eval]
  rw [hm]
  constructor
  · rfl
  · simp

/-- C4 (amended): in the match set produced by `calculate_eif_similarity`,
every ground-truth (original) name is claimed by at most one match, a
fuzzily claimed truth item is never also an exact match (its normalized
name is outside the predicted normalized set), and the predicted names of
the matches form a sublist of the predicted list (one match at most per
predicted position, in order) — though a predicted NAME occurring at
several positions may appear in several matches. -/
theorem claim4_claim_uniqueness_amended (mode : SimMode)
    (predicted ground_truth : List String) :
    ((calculate_eif_similarity mode predicted ground_truth).semantic_matches.map
      (fun d => d.2.1)).Nodup ∧
    (∀ d ∈ (calculate_eif_similarity mode predicted ground_truth).semantic_matches,
      normalize_eif_name d.2.1 ∉ normalizedList predicted) ∧
    List.Sublist
      ((calculate_eif_similarity mode predicted ground_truth).semantic_matches.map
        (fun d => d.1)) predicted := by
  by_cases hp : predicted = []
  · by_cases ht : ground_truth = []
    · subst hp; subst ht
      have hcalc : calculate_eif_similarity mode [] [] = ⟨1, 1, 1, 0, 0, []⟩ := by
        simp [calculate_eif_similarity]
      rw [hcalc]
      exact ⟨List.nodup_nil, by simp, List.nil_sublist _⟩
    · subst hp
      have hcalc : calculate_eif_similarity mode [] ground_truth = ⟨0, 0, 0, 0, 0, []⟩ := by
        simp [calculate_eif_similarity, ht]
      rw [hcalc]
      exact ⟨List.nodup_nil, by simp, List.nil_sublist _⟩
  · by_cases ht : ground_truth = []
    · subst ht
      have hcalc : calculate_eif_similarity mode predicted [] = ⟨0, 0, 0, 0, 0, []⟩ := by
        simp [calculate_eif_similarity, hp]
      rw [hcalc]
      exact ⟨List.nodup_nil, by simp, List.nil_sublist _⟩
    · rw [calculate_matches mode predicted ground_truth hp ht]
      have hst : StructInv (unmatchedTruthOf predicted ground_truth)
          (loopOf mode predicted ground_truth) :=
        fuzzyLoop_struct mode _ _
      obtain ⟨hnd, hsub, hlink, hdet⟩ := hst
      refine ⟨?_, ?_, ?_⟩
      · have h1 : ((loopOf mode predicted ground_truth).matchDetails.map
            (fun d => d.2.1)).reverse.Nodup := hlink ▸ hnd
        exact List.nodup_reverse.mp h1
      · intro d hd
        obtain ⟨tn, hmem, hne, hsc⟩ := hdet d hd
        obtain ⟨heq, _, hnotin⟩ :=
          unmatchedTruthOf_mem predicted ground_truth tn d.2.1 hmem
        rw [← heq]
        exact hnotin
      · have h1 := fuzzyLoop_details mode (unmatchedTruthOf predicted ground_truth)
          (unmatchedPredOf predicted ground_truth)
        have h2 : List.Sublist ((unmatchedPredOf predicted ground_truth).map Prod.snd)
            predicted := by
          have hz : List.Sublist (unmatchedPredOf predicted ground_truth)
              (((normalizedList predicted).zip predicted)) := by
            rw [unmatchedPredOf]
            exact List.filter_sublist _
          have hmap := List.Sublist.map Prod.snd hz
          have hzip : ((normalizedList predicted).zip predicted).map Prod.snd = predicted := by
            apply List.map_snd_zip
            simp [normalizedList]
          rw [hzip] at hmap
          exact hmap
        exact List.Sublist.trans h1 h2

theorem claim4_claim_uniqueness_witness :
    normalize_eif_name "b" ∉ normalizedList ["a"] := by
  have hmatches : (calculate_eif_similarity (.semantic (fun _ _ => (4 : ℚ) / 5))
      ["a"] ["b"]).semantic_matches = [("a", "b", (4 : ℚ) / 5)] := by
    have h := (calc_single (fun _ _ => (4 : ℚ) / 5) "a" "b" (by decide) (by norm_num)).1
    rw [if_pos ⟨by norm_num, by decide⟩] at h
    exact h
  exact (claim4_claim_uniqueness_amended (.semantic (fun _ _ => (4 : ℚ) / 5))
    ["a"] ["b"]).2.1 ("a", "b", (4 : ℚ) / 5) (by rw [hmatches]; simp)

/-- C9: a fuzzy match is only ever recorded for a truth item whose
normalized name is non-empty (the `and best_match` guard), and
`_string_similarity` returns 0.0 whenever either input is empty — in
particular two identical empty strings score 0.0, not 1.0. -/
theorem claim9_empty_normalization_guard :
    (∀ (mode : SimMode) (predicted ground_truth : List String),
      ∀ d ∈ (calculate_eif_similarity mode predicted ground_truth).semantic_matches,
        normalize_eif_name d.2.1 ≠ "") ∧
    (∀ s : String, string_similarity "" s = 0 ∧ string_similarity s "" = 0) := by
  constructor
  · intro mode predicted ground_truth d hd
    by_cases hp : predicted = []
    · by_cases ht : ground_truth = []
      · subst hp; subst ht
        have hcalc : calculate_eif_similarity mode [] [] = ⟨1, 1, 1, 0, 0, []⟩ := by
          simp [calculate_eif_similarity]
        rw [hcalc] at hd
        simp at hd
      · subst hp
        have hcalc : calculate_eif_similarity mode [] ground_truth =
            ⟨0, 0, 0, 0, 0, []⟩ := by
          simp [calculate_eif_similarity, ht]
        rw [hcalc] at hd
        simp at hd
    · by_cases ht : ground_truth = []
      · subst ht
        have hcalc : calculate_eif_similarity mode predicted [] =
            ⟨0, 0, 0, 0, 0, []⟩ := by
          simp [calculate_eif_similarity, hp]
        rw [hcalc] at hd
        simp at hd
      · rw [calculate_matches mode predicted ground_truth hp ht] at hd
        have hst : StructInv (unmatchedTruthOf predicted ground_truth)
            (loopOf mode predicted ground_truth) :=
          fuzzyLoop_struct mode _ _
        obtain ⟨tn, hmem, hne, _⟩ := hst.2.2.2 d hd
        obtain ⟨heq, _, _⟩ :=
          unmatchedTruthOf_mem predicted ground_truth tn d.2.1 hmem
        rw [← heq]
        exact hne
  · intro s
    constructor
    · simp [string_similarity]
    · simp [string_similarity]

theorem claim9_empty_normalization_witness : normalize_eif_name "b" ≠ "" := by
  have hmatches : (calculate_eif_similarity (.semantic (fun _ _ => (4 : ℚ) / 5))
      ["a"] ["b"]).semantic_matches = [("a", "b", (4 : ℚ) / 5)] := by
    have h := (calc_single (fun _ _ => (4 : ℚ) / 5) "a" "b" (by decide) (by norm_num)).1
    rw [if_pos ⟨by norm_num, by decide⟩] at h
    exact h
  exact claim9_empty_normalization_guard.1 (.semantic (fun _ _ => (4 : ℚ) / 5))
    ["a"] ["b"] ("a", "b", (4 : ℚ) / 5) (by rw [hmatches]; simp)

/-- C10: exact matching is computed over sets of normalized names —
`exact_matches` is the number of distinct shared normalized forms, so
appending a duplicate (an item whose normalized form is already in the
predicted list) never changes it — and every recorded fuzzy match pairs a
predicted item whose normalized form is outside the truth set with a
truth item whose normalized form is outside the predicted set (both were
excluded from exact matching). -/
theorem claim10_exact_set_semantics (mode : SimMode)
    (predicted ground_truth : List String) (hp : predicted ≠ []) (ht : ground_truth ≠ []) :
    (calculate_eif_similarity mode predicted ground_truth).exact_matches =
      ((normalizedList predicted).toFinset ∩ (normalizedList ground_truth).toFinset).card ∧
    (∀ x : String, normalize_eif_name x ∈ normalizedList predicted →
      (calculate_eif_similarity mode (predicted ++ [x]) ground_truth).exact_matches =
        (calculate_eif_similarity mode predicted ground_truth).exact_matches) ∧
    (∀ d ∈ (calculate_eif_similarity mode predicted ground_truth).semantic_matches,
      normalize_eif_name d.1 ∉ normalizedList ground_truth ∧
      normalize_eif_name d.2.1 ∉ normalizedList predicted) := by
  refine ⟨?_, ?_, ?_⟩
  · rw [calculate_exact mode predicted ground_truth hp ht]
    rfl
  · intro x hx
    have hp2 : predicted ++ [x] ≠ [] := by simp
    rw [calculate_exact mode (predicted ++ [x]) ground_truth hp2 ht,
      calculate_exact mode predicted ground_truth hp ht]
    rw [exactOf, exactOf]
    have hnl : normalizedList (predicted ++ [x]) =
        normalizedList predicted ++ [normalize_eif_name x] := by
      simp [normalizedList]
    rw [hnl, List.toFinset_append]
    have hsingle : ([normalize_eif_name x] : List String).toFinset ⊆
        (normalizedList predicted).toFinset := by
      simp only [List.toFinset_cons, List.toFinset_nil, insert_emptyc_eq]
      intro z hz
      simp only [Finset.mem_singleton] at hz
      subst hz
      exact List.mem_toFinset.mpr hx
    rw [Finset.union_eq_left.mpr hsingle]
  · intro d hd
    rw [calculate_matches mode predicted ground_truth hp ht] at hd
    have hst : StructInv (unmatchedTruthOf predicted ground_truth)
        (loopOf mode predicted ground_truth) :=
      fuzzyLoop_struct mode _ _
    constructor
    · have h1 := fuzzyLoop_details mode (unmatchedTruthOf predicted ground_truth)
        (unmatchedPredOf predicted ground_truth)
      have h2 : d.1 ∈ (unmatchedPredOf predicted ground_truth).map Prod.snd :=
        h1.subset (List.mem_map.mpr ⟨d, hd, rfl⟩)
      obtain ⟨pp, hpp, hppeq⟩ := List.mem_map.mp h2
      obtain ⟨heq, _, hnotin⟩ :=
        unmatchedPredOf_mem predicted ground_truth pp.1 pp.2 (by
          have : pp = (pp.1, pp.2) := rfl
          rw [← this]
          exact hpp)
      rw [← hppeq, ← heq]
      exact hnotin
    · obtain ⟨tn, hmem, _, _⟩ := hst.2.2.2 d hd
      obtain ⟨heq, _, hnotin⟩ :=
        unmatchedTruthOf_mem predicted ground_truth tn d.2.1 hmem
      rw [← heq]
      exact hnotin

theorem claim10_exact_set_semantics_witness :
    (calculate_eif_similarity .lexical ["a"] ["b"]).exact_matches =
      ((normalizedList ["a"]).toFinset ∩ (normalizedList ["b"]).toFinset).card :=
  (claim10_exact_set_semantics .lexical ["a"] ["b"] (by simp) (by simp)).1

/-! ### Claim theorems for normalization, oracles and extraction -/

/-- C5 counterexample: `normalize_eif_name` collapses whitespace before it
strips parentheses, so an interior parenthetical leaves a doubled space:
`"a (x) b"` normalizes to `"a  b"`, which differs from the normalization
`"a b"` of `"a b"`, although the two names differ only by parenthesized
content. -/
theorem claim5_counterexample :
    normalize_eif_name "a (x) b" = "a  b" ∧
    normalize_eif_name "a b" = "a b" ∧
    normalize_eif_name "a (x) b" ≠ normalize_eif_name "a b" :=
  ⟨by decide, by decide, by decide⟩

/-- C5 (amended): `normalize_eif_name` trims and lower-cases, collapses
whitespace runs, then strips `()`/`（）` content and trims again (the
collapse happens before the parenthesis stripping, not after).  Names that
differ only by case or extra/surrounding whitespace — i.e. with equal
lower-cased whitespace token lists — normalize identically, and a trailing
parenthetical is removed cleanly, as in the spec's example
`"Client Info (legacy)"` vs `"Client Info"`; an interior parenthetical may
leave a doubled space, so such pairs need not normalize identically. -/
theorem claim5_normalization_amended :
    (normalize_eif_name "Client Info (legacy)" = "client info" ∧
      normalize_eif_name "Client Info" = "client info") ∧
    (∀ s1 s2 : String,
      pySplit (lowerChars s1.data) = pySplit (lowerChars s2.data) →
      normalize_eif_name s1 = normalize_eif_name s2) :=
  ⟨⟨by decide, by decide⟩, normalize_eq_of_pySplit_eq⟩

theorem claim5_normalization_witness :
    normalize_eif_name "A  B" = normalize_eif_name "a b" :=
  claim5_normalization_amended.2 "A  B" "a b" (by decide)

/-- C8: `_string_similarity` agrees with the specification's description —
token-set Jaccard over whitespace tokens, with character-set Jaccard when
either string has no tokens — and always returns a value in [0,1].  It is
a pure function of its two arguments (deterministic, no I/O, total). -/
theorem claim8_lexical_oracle (s1 s2 : String) :
    string_similarity s1 s2 = string_similarity_spec s1 s2 ∧
    0 ≤ string_similarity s1 s2 ∧ string_similarity s1 s2 ≤ 1 := by
  refine ⟨?_, string_similarity_nonneg s1 s2, string_similarity_le_one s1 s2⟩
  simp only [string_similarity, string_similarity_spec]
  by_cases h1 : s1 = ""
  · subst h1
    have hc : ¬((pySplit ("" : String).data).toFinset ≠ ∅ ∧
        (pySplit s2.data).toFinset ≠ ∅) := fun hc => hc.1 rfl
    rw [if_pos (Or.inl rfl), if_neg hc]
    exact (jaccardQ_empty_left _).symm
  · by_cases h2 : s2 = ""
    · subst h2
      have hc : ¬((pySplit s1.data).toFinset ≠ ∅ ∧
          (pySplit ("" : String).data).toFinset ≠ ∅) := fun hc => hc.2 rfl
      rw [if_pos (Or.inr rfl), if_neg hc]
      have hchar : (("" : String).data.toFinset : Finset Char) = ∅ := rfl
      rw [hchar]
      simp [jaccardQ]
    · have hne : ¬(s1 = "" ∨ s2 = "") := by tauto
      rw [if_neg hne]
      by_cases hsets : (pySplit s1.data).toFinset = ∅ ∨ (pySplit s2.data).toFinset = ∅
      · rw [if_pos hsets, if_neg (by tauto)]
      · rw [if_neg hsets, if_pos (by tauto)]

/-- C6: `check_eif_semantic_similarity` always completes with a score in
[0,1]; when the model is unavailable, raises, returns no text, or returns
a text with no parseable number, it returns the LexicalOracle's
`_string_similarity` score for the same pair; when a number is parsed it
is clamped to [0,1] by `max(0.0, min(1.0, score))`. -/
theorem claim6_semantic_fallback (name1 name2 : String)
    (resp : Option (Except Unit (List String))) :
    (0 ≤ check_eif_semantic_similarity name1 name2 resp true ∧
      check_eif_semantic_similarity name1 name2 resp true ≤ 1) ∧
    (resp = none →
      check_eif_semantic_similarity name1 name2 resp true =
        string_similarity name1 name2) ∧
    (∀ e, resp = some (.error e) →
      check_eif_semantic_similarity name1 name2 resp true =
        string_similarity name1 name2) ∧
    (resp = some (.ok []) →
      check_eif_semantic_similarity name1 name2 resp true =
        string_similarity name1 name2) ∧
    (∀ t ts, resp = some (.ok (t :: ts)) →
      extractFirstNumber (pyStrip t.data) = none →
      check_eif_semantic_similarity name1 name2 resp true =
        string_similarity name1 name2) ∧
    (∀ t ts q, resp = some (.ok (t :: ts)) →
      extractFirstNumber (pyStrip t.data) = some q →
      check_eif_semantic_similarity name1 name2 resp true = max 0 (min 1 q)) := by
  have hss : 0 ≤ string_similarity name1 name2 ∧ string_similarity name1 name2 ≤ 1 :=
    ⟨string_similarity_nonneg name1 name2, string_similarity_le_one name1 name2⟩
  refine ⟨?_, ?_, ?_, ?_, ?_, ?_⟩
  · rcases resp with _ | r
    · simpa [check_eif_semantic_similarity] using hss
    · rcases r with e | texts
      · simpa [check_eif_semantic_similarity] using hss
      · rcases texts with _ | ⟨t, ts⟩
        · simpa [check_eif_semantic_similarity] using hss
        · cases hex : extractFirstNumber (pyStrip t.data) with
          | none => simpa [check_eif_semantic_similarity, hex] using hss
          | some q =>
            simp only [check_eif_semantic_similarity, hex]
            exact ⟨le_max_left 0 _, max_le (by norm_num) (min_le_left 1 q)⟩
  · rintro rfl
    simp [check_eif_semantic_similarity]
  · rintro e rfl
    simp [check_eif_semantic_similarity]
  · rintro rfl
    simp [check_eif_semantic_similarity]
  · rintro t ts rfl hex
    simp [check_eif_semantic_similarity, hex]
  · rintro t ts q rfl hex
    simp [check_eif_semantic_similarity, hex]

theorem claim6_semantic_fallback_witness :
    check_eif_semantic_similarity "a" "b" (some (.error ())) true =
      string_similarity "a" "b" :=
  (claim6_semantic_fallback "a" "b" (some (.error ()))).2.2.1 () rfl

/-- C7 counterexample: `extract_answer` does not return the ending labeled
list for every text that ends in one — the regex search finds the first
occurrence of the label pattern in the whole text, so an earlier labeled
list wins.  This text ends in `EIF功能点列表：[Job Info, Employee Info]`
yet extraction returns `["A"]` from the first labeled list. -/
theorem claim7_counterexample :
    strEndsWith "EIF功能点列表：[A]\nEIF功能点列表：[Job Info, Employee Info]"
      "EIF功能点列表：[Job Info, Employee Info]" = true ∧
    extract_answer "EIF功能点列表：[A]\nEIF功能点列表：[Job Info, Employee Info]" = ["A"] ∧
    extract_answer "EIF功能点列表：[A]\nEIF功能点列表：[Job Info, Employee Info]" ≠
      ["Job Info", "Employee Info"] :=
  ⟨by decide, by decide, by decide⟩

/-- C7 (amended): extraction returns the candidates of the first
recognized labeled list in the text.  In particular, on a text whose only
label occurrence is the final `EIF功能点列表：[Job Info, Employee Info]`
(with or without preceding prose), `extract_answer` returns exactly
`["Job Info", "Employee Info"]`, and on `EIF功能点列表：无` (and the
English sentinel `none`) the sentinel short-circuits to the explicit
empty list. -/
theorem claim7_extraction_amended :
    extract_answer "EIF功能点列表：[Job Info, Employee Info]" =
      ["Job Info", "Employee Info"] ∧
    extract_answer "分析完成。\nEIF功能点列表：[Job Info, Employee Info]" =
      ["Job Info", "Employee Info"] ∧
    extract_answer "EIF功能点列表：无" = [] ∧
    extract_answer "EIF功能点列表：none" = [] :=
  ⟨by decide, by decide, by decide, by decide⟩

end EifSelection
